import Mathlib

/-!
Verification of the beancount parser/renderer (Rust crates `beancount-core`,
`beancount-parser`, `beancount-render`) against its natural-language
specification.

The Rust code is shallowly embedded: machine decimals (`rust_decimal::Decimal`)
are modelled as exact rationals `ℚ`; `HashMap` is modelled as an association
list whose `insert` replaces the value of an existing key in place and appends
a fresh key at the end; `HashSet` is a duplicate-free list with
insert-if-absent; fallible Rust code returns an `Except`-like result, and a
Rust `panic` (a crash, observable by the caller only as an abort) is a third
outcome, distinct from returned error values.

The pest grammar file (`beancount.pest`) is not part of the sources, so the
embedding starts from the shapes of the parse trees that the tree constructor
in `beancount-parser/src/lib.rs` consumes ("…Syn" types below); the string to
parse-tree step is out of scope.  Spans are modelled at item granularity: the
location attached to an error is the index of the offending top-level item,
and end-of-input has index `items.length`.
-/

namespace Beancount

/-- A single-quote character, used inside error messages
(`rust: format!("Attempting to pop absent tag: '\x7b\x7d'", …)`). -/
def sq : String := (Char.ofNat 39).toString

/-- Double-quote character for rendered output. -/
def dq : String := "\""

/-! ## Account types (`beancount-core/src/account_types.rs`) -/

/-- The five canonical account types (`enum AccountType`). -/
inductive AccountType where
  | Assets
  | Liabilities
  | Equity
  | Income
  | Expenses
deriving DecidableEq, Repr

/-- `AccountType::default_name`. -/
def AccountType.default_name : AccountType → String
  | .Assets => "Assets"
  | .Liabilities => "Liabilities"
  | .Equity => "Equity"
  | .Income => "Income"
  | .Expenses => "Expenses"

/-! ## Flags (`beancount-core/src/flags.rs`) -/

/-- `enum Flag` : `Okay | Warning | Other(Cow<str>)`. -/
inductive Flag where
  | Okay
  | Warning
  | Other (s : String)
deriving DecidableEq, Repr

/-- `impl From<Cow<str>> for Flag`: `"*" | "txn"` map to `Okay`, `"!"` to
`Warning`, anything else to `Other(s)`. -/
def Flag.from (s : String) : Flag :=
  if s = "*" ∨ s = "txn" then .Okay
  else if s = "!" then .Warning
  else .Other s

/-- `impl Display for Flag`: `Okay` prints `*`, `Warning` prints `!`,
`Other(s)` prints `s`. -/
def Flag.display : Flag → String
  | .Okay => "*"
  | .Warning => "!"
  | .Other s => s

/-! ## Claim C10 -/

/-- C10.  Flag normalization and round-trip: `Flag::from(s)` is `Okay` iff
`s` is `"*"` or `"txn"`, `Warning` iff `s = "!"`, and `Other(s)` otherwise
(so `Other("*")`, `Other("txn")`, `Other("!")` are never produced by the
conversion), and re-converting the display string of any converted flag
yields the same flag again. -/
theorem C10_flag_normalization_roundtrip :
    (∀ s : String, (Flag.from s = .Okay ↔ (s = "*" ∨ s = "txn")))
    ∧ (∀ s : String, (Flag.from s = .Warning ↔ s = "!"))
    ∧ (∀ s : String, (¬ (s = "*" ∨ s = "txn")) → ¬ s = "!" → Flag.from s = .Other s)
    ∧ (∀ s t : String, Flag.from s = .Other t → ¬ (t = "*" ∨ t = "txn" ∨ t = "!"))
    ∧ (∀ s : String, Flag.from (Flag.from s).display = Flag.from s) := by
  refine ⟨?_, ?_, ?_, ?_, ?_⟩
  · intro s
    unfold Flag.from
    by_cases h : s = "*" ∨ s = "txn" <;> by_cases h2 : s = "!" <;> simp [h, h2]
  · intro s
    unfold Flag.from
    by_cases h : s = "*" ∨ s = "txn"
    · rcases h with h | h <;> simp [h]
    · by_cases h2 : s = "!" <;> simp [h, h2]
  · intro s h h2
    unfold Flag.from
    simp [h, h2]
  · intro s t h
    unfold Flag.from at h
    by_cases h1 : s = "*" ∨ s = "txn"
    · simp [h1] at h
    · by_cases h2 : s = "!"
      · simp [h1, h2] at h
      · simp [h1, h2] at h
        subst h
        push_neg
        refine ⟨?_, ?_, ?_⟩ <;> intro hc <;> subst hc <;> simp_all
  · intro s
    unfold Flag.from
    by_cases h1 : s = "*" ∨ s = "txn"
    · simp [h1, Flag.display]
    · by_cases h2 : s = "!"
      · simp [h1, h2, Flag.display]
      · simp [h1, h2, Flag.display]

/-! ## Amounts (`beancount-core/src/amount.rs`)

Machine decimals (`rust_decimal::Decimal`) are modelled as exact rationals. -/

/-- `struct Amount` : a number together with a commodity. -/
structure Amount where
  num : ℚ
  currency : String
deriving DecidableEq, Repr

/-- `struct IncompleteAmount` : both fields optional. -/
structure IncompleteAmount where
  num : Option ℚ
  currency : Option String
deriving DecidableEq, Repr

/-! ## Accounts (`beancount-core/src/account.rs`) and their resolution -/

/-- `struct Account` : account type plus the colon-separated name pieces
after the root. -/
structure Account where
  ty : AccountType
  parts : List String
deriving DecidableEq, Repr

/-- The account token as produced by the grammar: the first piece (the root
name) and the remaining pieces. -/
structure AccountSyn where
  first : String
  rest : List String
deriving DecidableEq, Repr

/-- The root-name table of `ParseState` (`HashMap<AccountType, String>`),
modelled as an association list.  `ParseState::new` fills it from
`default_name` in the order of the source array. -/
def initial_root_names : List (AccountType × String) :=
  [AccountType.Assets, .Liabilities, .Equity, .Income, .Expenses].map
    (fun ty => (ty, ty.default_name))

/-- `fn account` (`beancount-parser/src/lib.rs`): look the first piece up
among the current root names; an unknown root is the domain error
`"Invalid root account"` (surfaced by the caller as an `InvalidInput`
parse error whose message embeds this text). -/
def account (roots : List (AccountType × String)) (syn : AccountSyn) :
    Except String Account :=
  match roots.find? (fun p => p.2 = syn.first) with
  | some p => .ok ⟨p.1, syn.rest⟩
  | none => .error "Invalid root account"

/-! ## Error model (`beancount-parser/src/error.rs`) and Rust outcomes -/

/-- `enum ParseErrorKind`. -/
inductive ParseErrorKind where
  | decimalError (message : String)
  | invalidInput (message : String)
  | invalidParserState (message : String)
deriving DecidableEq, Repr

/-- `struct ParseError`: kind plus location.  Spans are modelled at item
granularity: `location` is the index of the offending top-level item. -/
structure ParseError where
  kind : ParseErrorKind
  location : Nat
deriving DecidableEq, Repr

/-- The outcome of running a piece of Rust code: a value, a returned error,
or a `panic` (a crash — observable only as an abort, never as a value). -/
inductive Res (α : Type) where
  | ok (a : α)
  | err (e : ParseErrorKind)
  | panicked (msg : String)
deriving DecidableEq, Repr

/-- Whether an outcome is a returned value. -/
def Res.isOk {α : Type} : Res α → Bool
  | .ok _ => true
  | _ => false

/-! ## Cost specs (`beancount-core/src/position.rs`, constructor in
`beancount-parser/src/lib.rs`) -/

/-- `struct CostSpec`. -/
structure CostSpec where
  number_per : Option ℚ
  number_total : Option ℚ
  currency : Option String
  date : Option String
  label : Option String
  merge_cost : Bool
deriving DecidableEq, Repr

/-- One element inside a `compound_amount` parse node: a numeric expression
(already evaluated, see the numeric-evaluator section) or a commodity. -/
inductive CompElem where
  | num (q : ℚ)
  | commodity (c : String)
deriving DecidableEq, Repr

/-- One component of a cost spec: a date, a quoted label, a compound
amount, or the lone `*` (merge). -/
inductive CostComp where
  | date (d : String)
  | label (s : String)
  | compound (elems : List CompElem)
  | asterisk
deriving DecidableEq, Repr

/-- A `cost_spec` parse node: `total = true` for the `\x7b\x7b … \x7d\x7d`
form (rule `cost_spec_total`), `false` for `\x7b … \x7d`. -/
structure CostSpecSyn where
  total : Bool
  comps : List CostComp
deriving DecidableEq, Repr

/-- `fn compound_amount`: the first number goes to `number_per`, a second
number to `number_total`, a commodity to `currency`. -/
def compound_amount (elems : List CompElem) :
    Option ℚ × Option ℚ × Option String :=
  elems.foldl
    (fun acc e =>
      match e with
      | .num q =>
          if acc.1.isNone then (some q, acc.2.1, acc.2.2)
          else (acc.1, some q, acc.2.2)
      | .commodity c => (acc.1, acc.2.1, some c))
    (none, none, none)

/-- Accumulator for the `cost_spec` component loop: the compound-amount
triple, the optional date, the optional label, and the merge flag. -/
structure CostAcc where
  amount : Option ℚ × Option ℚ × Option String
  date : Option String
  label : Option String
  merge : Bool

/-- `fn cost_spec`: fold the components (a later compound amount replaces an
earlier one), then, for the total-cost form, `panic!` if the compound amount
provided both numbers, else move the per-unit number into `number_total`.
The `panic!` in the source is a crash, not a returned error. -/
def cost_spec (syn : CostSpecSyn) : Res CostSpec :=
  let acc : CostAcc :=
    syn.comps.foldl
      (fun acc comp =>
        match comp with
        | .date d => { acc with date := some d }
        | .label s => { acc with label := some s }
        | .compound elems => { acc with amount := compound_amount elems }
        | .asterisk => { acc with merge := true })
      ⟨(none, none, none), none, none, false⟩
  if syn.total then
    if acc.amount.2.1.isSome then
      .panicked "Per-unit cost may not be specified using total cost"
    else
      .ok ⟨none, acc.amount.1, acc.amount.2.2, acc.date, acc.label, acc.merge⟩
  else
    .ok ⟨acc.amount.1, acc.amount.2.1, acc.amount.2.2, acc.date, acc.label, acc.merge⟩

/-! ## Price specs and postings

`PriceSpec` is referenced by `beancount-parser/src/lib.rs` but its defining
module of `beancount-core` is not among the sources. -/

/-- Modelled from the spec: `PriceSpec = PerUnit(IncompleteAmount) |
Total(IncompleteAmount)` — the missing `beancount-core` definition used by
the parser. -/
inductive PriceSpec where
  | PerUnit (a : IncompleteAmount)
  | Total (a : IncompleteAmount)
deriving DecidableEq, Repr

/-- Metadata values (`beancount-core/src/metadata.rs`). -/
inductive MetaValue where
  | Text (s : String)
  | Account (a : Account)
  | DateV (d : String)
  | Currency (c : String)
  | Tag (t : String)
  | Bool (b : Bool)
  | AmountV (a : Amount)
  | Number (q : ℚ)
deriving DecidableEq, Repr

/-- `Meta` (`HashMap<Cow<str>, MetaValue>`) as an association list. -/
abbrev Meta : Type := List (String × MetaValue)

/-- `HashMap::insert`: replace the value of an existing key in place,
append a fresh key. -/
def Meta.insert (m : Meta) (k : String) (v : MetaValue) : Meta :=
  if (List.any m (fun p => p.1 = k)) then
    List.map (fun p => if p.1 = k then (k, v) else p) m
  else
    m ++ [(k, v)]

/-- `struct Posting` (`beancount-core/src/posting.rs`; its `price` field has
type `Option<PriceSpec>` in the revision the parser is written against). -/
structure Posting where
  account : Account
  units : IncompleteAmount
  cost : Option CostSpec
  price : Option PriceSpec
  flag : Option Flag
  meta : Meta
deriving DecidableEq, Repr

/-- A `posting` parse node: optional flag token, account token, optional
units, optional cost spec, optional price annotation.  The price annotation
(`fn price_annotation`) is its `is_total` bit together with the
`IncompleteAmount` parsed inside it; numeric expressions inside amounts are
already evaluated (see the numeric-evaluator section). -/
structure PostingSyn where
  flag : Option String
  account : AccountSyn
  units : Option IncompleteAmount
  cost : Option CostSpecSyn
  price_annot : Option (Bool × IncompleteAmount)
deriving DecidableEq, Repr

/-- `fn posting`: resolve the account, default absent units to the empty
`IncompleteAmount`, build the cost spec, and map the price annotation:
`is_total = true` becomes `PriceSpec::Total`, `false` becomes
`PriceSpec::PerUnit`, with the annotation amount passed through unchanged
(the match inspects `units.num` but ignores it). -/
def posting (roots : List (AccountType × String)) (syn : PostingSyn) :
    Res Posting :=
  let flag := syn.flag.map Flag.from
  match account roots syn.account with
  | .error msg => .err (.invalidInput msg)
  | .ok acct =>
    let units := syn.units.getD ⟨none, none⟩
    let costRes : Res (Option CostSpec) :=
      match syn.cost with
      | none => .ok none
      | some cs =>
          match cost_spec cs with
          | .ok c => .ok (some c)
          | .err e => .err e
          | .panicked m => .panicked m
    match costRes with
    | .err e => .err e
    | .panicked m => .panicked m
    | .ok cost =>
      let price : Option PriceSpec :=
        match syn.price_annot, units.num with
        | some (true, p), _ => some (.Total p)
        | some (false, p), _ => some (.PerUnit p)
        | none, _ => none
      .ok ⟨acct, units, cost, price, flag, []⟩

/-! ## Claim C4 -/

/-- C4.  When a posting uses total-cost braces and the compound amount
provides both a per-unit and a total number, the source executes
`panic!("Per-unit cost may not be specified using total cost")` — the
process crashes instead of returning the domain error as a value.  This
evaluates the embedded `cost_spec` at such an input (the cost spec of
`Assets:Cash 10 FOO \x7b\x7b 2 # 20 USD \x7d\x7d`). -/
theorem C4_total_cost_with_both_numbers_panics :
    cost_spec ⟨true, [.compound [.num 2, .num 20, .commodity "USD"]]⟩ =
      .panicked "Per-unit cost may not be specified using total cost" := by
  rfl

/-! ## Claim C5 -/

/-- C5.  Price annotation preservation: whenever `posting` succeeds, a `@@`
annotation (is_total = true) yields `PriceSpec::Total` and a `@` annotation
yields `PriceSpec::PerUnit`, in both cases carrying exactly the
`IncompleteAmount` that was parsed — the total is never divided by the
posting's unit count. -/
theorem C5_price_annotation_preserved :
    ∀ (roots : List (AccountType × String)) (syn : PostingSyn) (p : Posting),
      posting roots syn = .ok p →
      (∀ amt, syn.price_annot = some (true, amt) →
        p.price = some (.Total amt))
      ∧ (∀ amt, syn.price_annot = some (false, amt) →
        p.price = some (.PerUnit amt))
      ∧ (syn.price_annot = none → p.price = none) := by
  intro roots syn p h
  unfold posting at h
  cases hacct : account roots syn.account with
  | error msg => rw [hacct] at h; simp at h
  | ok acct =>
    rw [hacct] at h
    simp only at h
    cases hcost : (match syn.cost with
      | none => (Res.ok none : Res (Option CostSpec))
      | some cs =>
          match cost_spec cs with
          | .ok c => .ok (some c)
          | .err e => .err e
          | .panicked m => .panicked m) with
    | err e => rw [hcost] at h; simp at h
    | panicked m => rw [hcost] at h; simp at h
    | ok cost =>
      rw [hcost] at h
      simp only [Res.ok.injEq] at h
      subst h
      refine ⟨?_, ?_, ?_⟩
      · intro amt hpa
        simp [hpa]
      · intro amt hpa
        simp [hpa]
      · intro hpa
        simp [hpa]

/-- Concrete posting input used by the C5 witness: the posting
`Liabilities:CreditCard 10 USD @@ 20 GBP`. -/
def c5syn : PostingSyn :=
  ⟨none, ⟨"Liabilities", ["CreditCard"]⟩, some ⟨some 10, some "USD"⟩, none,
    some (true, ⟨some 20, some "GBP"⟩)⟩

/-- The posting that `posting` produces from `c5syn`. -/
def c5post : Posting :=
  ⟨⟨.Liabilities, ["CreditCard"]⟩, ⟨some 10, some "USD"⟩, none,
    some (.Total ⟨some 20, some "GBP"⟩), none, []⟩

/-- Witness for C5 at a concrete input. -/
theorem C5_price_annotation_preserved_witness :
    posting initial_root_names c5syn = .ok c5post
    ∧ c5post.price = some (.Total ⟨some 20, some "GBP"⟩) := by
  constructor
  · rfl
  · exact (C5_price_annotation_preserved initial_root_names c5syn c5post rfl).1
      ⟨some 20, some "GBP"⟩ rfl

/-! ## Directives (`beancount-core/src/directives.rs`)

The claims exercise option, include, open and transaction directives; the
remaining variants of `enum Directive` play no role in any claim and are
represented by the catch-all `Unsupported` (which the renderer refuses, as
in the source). -/

/-- `enum Booking`. -/
inductive Booking where
  | Strict
  | None
  | Average
  | Fifo
  | Lifo
deriving DecidableEq, Repr

/-- `struct BcOption`. -/
structure BcOption where
  name : String
  val : String
  source : Option String
deriving DecidableEq, Repr

/-- `struct Include`. -/
structure Include where
  filename : String
  source : Option String
deriving DecidableEq, Repr

/-- `struct Open`. -/
structure Open where
  date : String
  account : Account
  currencies : List String
  booking : Booking
  meta : Meta
  source : Option String
deriving DecidableEq, Repr

/-- `struct Transaction`.  `tags` and `links` are `HashSet`s, modelled as
duplicate-free lists. -/
structure Transaction where
  date : String
  flag : Flag
  payee : Option String
  narration : String
  tags : List String
  links : List String
  postings : List Posting
  meta : Meta
  source : Option String
deriving DecidableEq, Repr

/-- The `enum Directive` variants the claims exercise. -/
inductive Directive where
  | Option (o : BcOption)
  | Include (i : Include)
  | Open (o : Open)
  | Transaction (t : Transaction)
  | Unsupported
deriving DecidableEq, Repr

/-- `struct Ledger`. -/
structure Ledger where
  directives : List Directive
deriving DecidableEq, Repr

/-! ## Renderer (`beancount-render/src/lib.rs`) -/

/-- `rust_decimal::Decimal` values are always of the form `m / 10^s`; its
`Display` prints the sign, the integer digits and `s` fraction digits.
This reconstructs that display from the rational value (no claim theorem
depends on it; it only keeps the renderer total). -/
def decToString (q : ℚ) : String :=
  if q.den = 1 then toString q.num
  else
    match (List.range 29).find? (fun s => (q * (10 : ℚ) ^ s).den = 1) with
    | some s =>
        let n := (q * (10 : ℚ) ^ s).num
        let sign := if n < 0 then "-" else ""
        let digits := toString n.natAbs
        let padded :=
          if digits.length ≤ s then
            String.mk (List.replicate (s + 1 - digits.length) (Char.ofNat 48))
              ++ digits
          else digits
        sign ++ padded.take (padded.length - s) ++ "." ++
          padded.drop (padded.length - s)
    | none => toString q.num ++ "/" ++ toString q.den

/-- `Renderer<&Account>`: the renderer always prints the *default* name of
the account type, never a renamed root. -/
def renderAccount (a : Account) : String :=
  a.ty.default_name ++ ":" ++ String.intercalate ":" a.parts

/-- `Renderer<&Amount>`. -/
def renderAmount (a : Amount) : String :=
  decToString a.num ++ " " ++ a.currency

/-- `Renderer<&IncompleteAmount>`. -/
def renderIncompleteAmount (a : IncompleteAmount) : String :=
  match a.num, a.currency with
  | some n, some c => decToString n ++ " " ++ c
  | none, some c => c
  | some n, none => decToString n
  | none, none => ""

/-- `Renderer<&MetaValue>`. -/
def renderMetaValue : MetaValue → String
  | .Text t => t
  | .Account a => renderAccount a
  | .DateV d => d
  | .Currency c => c
  | .Tag t => t
  | .Bool b => if b then "true" else "false"
  | .AmountV a => renderAmount a
  | .Number q => decToString q

/-- `fn render_key_value`: one `\tKEY: VALUE\n` line per entry. -/
def render_key_value (m : Meta) : String :=
  String.join (m.map (fun p => "\t" ++ p.1 ++ ": " ++ renderMetaValue p.2 ++ "\n"))

/-- `Renderer<&CostSpec>`: double braces when `number_total` is present;
the number printed is `number_total.or(number_per)` and it is emitted only
together with a currency; then the date and the label, comma-separated. -/
def renderCostSpec (c : CostSpec) : String :=
  let db := c.number_total.isSome
  let opening := if db then "\x7b\x7b" else "\x7b"
  let closing := if db then "\x7d\x7d" else "\x7d"
  let (numPart, first) :=
    match c.number_total.orElse (fun _ => c.number_per), c.currency with
    | some n, some cur => (decToString n ++ " " ++ cur, false)
    | _, _ => ("", true)
  let (datePart, first) :=
    match c.date with
    | some d => ((if first then "" else ", ") ++ d, false)
    | none => ("", first)
  let labelPart :=
    match c.label with
    | some l => (if first then "" else ", ") ++ l
    | none => ""
  opening ++ numPart ++ datePart ++ labelPart ++ closing

/-- The `IncompleteAmount` inside a price spec (the render crate is written
against the revision where `Posting.price` is the plain amount; rendering a
`PriceSpec` renders its contained amount). -/
def PriceSpec.amount : PriceSpec → IncompleteAmount
  | .PerUnit a => a
  | .Total a => a

/-- `Renderer<&Posting>`: tab, optional flag, account, tab, units, optional
cost, optional price — always introduced by `" @ "`, even for a total
price — newline, then the posting metadata. -/
def renderPosting (p : Posting) : String :=
  "\t"
    ++ (match p.flag with | some f => f.display ++ " " | none => "")
    ++ renderAccount p.account
    ++ "\t"
    ++ renderIncompleteAmount p.units
    ++ (match p.cost with | some c => " " ++ renderCostSpec c | none => "")
    ++ (match p.price with
        | some pr => " @ " ++ renderIncompleteAmount pr.amount
        | none => "")
    ++ "\n"
    ++ render_key_value p.meta

/-- `Renderer<&Open>`: booking is omitted for `None` and printed lowercase
in quotes otherwise. -/
def renderOpen (o : Open) : String :=
  o.date ++ " open " ++ renderAccount o.account
    ++ String.join (o.currencies.map (fun c => " " ++ c))
    ++ (match o.booking with
        | .Strict => " " ++ dq ++ "strict" ++ dq
        | .None => ""
        | .Average => " " ++ dq ++ "average" ++ dq
        | .Fifo => " " ++ dq ++ "fifo" ++ dq
        | .Lifo => " " ++ dq ++ "lifo" ++ dq)
    ++ "\n"
    ++ render_key_value o.meta

/-- `Renderer<&BcOption>`. -/
def renderOption (o : BcOption) : String :=
  "option " ++ dq ++ o.name ++ dq ++ " " ++ dq ++ o.val ++ dq ++ "\n"

/-- `Renderer<&Include>`: the source writes
`writeln!(w, "include \"\x7b\x7d\'", include.filename)` — the opening
delimiter is a double quote but the closing delimiter is a **single**
quote. -/
def renderInclude (i : Include) : String :=
  "include " ++ dq ++ i.filename ++ sq ++ "\n"

/-- `Renderer<&Transaction>`: tags and links are printed bare (their `Cow`
contents, without `#` or `^`). -/
def renderTransaction (t : Transaction) : String :=
  t.date ++ " " ++ t.flag.display
    ++ (match t.payee with
        | some p => " " ++ dq ++ p ++ dq
        | none => "")
    ++ " " ++ dq ++ t.narration ++ dq
    ++ String.join (t.tags.map (fun tg => " " ++ tg))
    ++ String.join (t.links.map (fun l => " " ++ l))
    ++ "\n"
    ++ String.join (t.postings.map renderPosting)
    ++ render_key_value t.meta

/-- `enum BasicRendererError` (the `Io` variant is unreachable in this
model). -/
inductive RenderError where
  | unsupported
deriving DecidableEq, Repr

/-- `Renderer<&Directive>`: dispatch; `Unsupported` is a render error. -/
def renderDirective : Directive → Except RenderError String
  | .Option o => .ok (renderOption o)
  | .Include i => .ok (renderInclude i)
  | .Open o => .ok (renderOpen o)
  | .Transaction t => .ok (renderTransaction t)
  | .Unsupported => .error .unsupported

/-- `fn render` / `Renderer<&Ledger>`: each directive followed by an extra
blank line (`writeln!(write)` after every directive). -/
def render (l : Ledger) : Except RenderError String :=
  l.directives.foldl
    (fun acc d =>
      match acc, renderDirective d with
      | .ok s, .ok ds => .ok (s ++ ds ++ "\n")
      | .error e, _ => .error e
      | _, .error e => .error e)
    (.ok "")

/-! ## Claim C9 -/

/-- C9.  Rendered form of include: the source emits
`include "FILE` followed by a **single quote** and a newline — the closing
delimiter is not a double quote, so the rendered line differs from the
specified `include "FILE"` form. -/
theorem C9_include_closing_delimiter_is_single_quote :
    renderDirective (.Include ⟨"path/to/include/file.beancount", none⟩) =
      .ok ("include " ++ dq ++ "path/to/include/file.beancount" ++ sq ++ "\n")
    ∧ ("include " ++ dq ++ "path/to/include/file.beancount" ++ sq ++ "\n")
      ≠ ("include " ++ dq ++ "path/to/include/file.beancount" ++ dq ++ "\n") := by
  exact ⟨rfl, by decide⟩

/-! ## Claim C1 -/

/-- The ledger obtained by parsing the valid source `include "a"\n`. -/
def c1ledger : Ledger :=
  ⟨[.Include ⟨"a", some ("include " ++ dq ++ "a" ++ dq ++ "\n")⟩]⟩

/-- C1.  Round-trip fixpoint fails: rendering the ledger parsed from
`include "a"\n` produces `include "a` + single quote + two newlines — a
byte string in which the quoted filename is never closed by a double quote,
so it is not an `include` line of the grammar and `parse(render(L))`
cannot return `L`.  (The repository's own render test `test_include`
asserts exactly the claimed round-trip and is contradicted by this
output.) -/
theorem C1_roundtrip_broken_on_include :
    render c1ledger = .ok ("include " ++ dq ++ "a" ++ sq ++ "\n\n")
    ∧ ("include " ++ dq ++ "a" ++ sq ++ "\n\n")
      ≠ ("include " ++ dq ++ "a" ++ dq ++ "\n\n") := by
  exact ⟨rfl, by decide⟩

/-! ## Parse state (`beancount-parser/src/lib.rs`, `struct ParseState`) -/

/-- `HashSet` insert for tags/links: add the element unless present. -/
def setInsert (l : List String) (x : String) : List String :=
  if x ∈ l then l else l ++ [x]

/-- `ParseState::push_tag`: increment the count of `tag`, inserting it with
count 1 when absent (`*self.pushed_tags.entry(tag).or_insert(0) += 1`). -/
def push_tag (pt : List (String × Nat)) (tag : String) : List (String × Nat) :=
  if pt.any (fun p => p.1 = tag) then
    pt.map (fun p => if p.1 = tag then (p.1, p.2 + 1) else p)
  else pt ++ [(tag, 1)]

/-- `ParseState::pop_tag`: remove the entry when its count is at most 1,
decrement it otherwise; popping an absent tag is the domain error
`Attempting to pop absent tag: 'X'`. -/
def pop_tag (pt : List (String × Nat)) (tag : String) :
    Except String (List (String × Nat)) :=
  match pt.find? (fun p => p.1 = tag) with
  | some p =>
      if p.2 ≤ 1 then .ok (pt.filter (fun q => ¬ q.1 = tag))
      else .ok (pt.map (fun q => if q.1 = tag then (q.1, q.2 - 1) else q))
  | none => .error ("Attempting to pop absent tag: " ++ sq ++ tag ++ sq)

/-- `ParseState::get_pushed_tags`: the key set of the multiset. -/
def get_pushed_tags (pt : List (String × Nat)) : List String :=
  pt.map (fun p => p.1)

/-- The count a tag currently has on the tag stack. -/
def tag_count (pt : List (String × Nat)) (tag : String) : Nat :=
  match pt.find? (fun p => p.1 = tag) with
  | some p => p.2
  | none => 0

/-- `struct ParseState`: current root names and the pushed-tag multiset. -/
structure ParseState where
  root_names : List (AccountType × String)
  pushed_tags : List (String × Nat)
deriving DecidableEq, Repr

/-- `ParseState::new`. -/
def initState : ParseState := ⟨initial_root_names, []⟩

/-! ## Metadata key-values (`fn meta_kv_pair`, `fn meta_kv`) -/

/-- The right-hand side of a `key_value` parse node, by grammar rule.
Numeric expressions are already evaluated (see the numeric-evaluator
section); the `bool` rule keeps its raw token, compared against `"true"`
by the constructor. -/
inductive MetaValueSyn where
  | text (s : String)
  | account (a : AccountSyn)
  | date (s : String)
  | commodity (s : String)
  | tag (s : String)
  | boolRaw (s : String)
  | amount (q : ℚ) (c : String)
  | number (q : ℚ)
deriving DecidableEq, Repr

/-- A `key_value` parse node. -/
structure KVSyn where
  key : String
  value : MetaValueSyn
deriving DecidableEq, Repr

/-- `fn meta_kv_pair`: select the `MetaValue` variant from the value rule;
only the `account` variant can fail (unknown root). -/
def meta_kv_pair (roots : List (AccountType × String)) (kv : KVSyn) :
    Res (String × MetaValue) :=
  match kv.value with
  | .text s => .ok (kv.key, .Text s)
  | .account a =>
      match account roots a with
      | .ok x => .ok (kv.key, .Account x)
      | .error m => .err (.invalidInput m)
  | .date s => .ok (kv.key, .DateV s)
  | .commodity s => .ok (kv.key, .Currency s)
  | .tag s => .ok (kv.key, .Tag s)
  | .boolRaw s => .ok (kv.key, .Bool (s = "true"))
  | .amount q c => .ok (kv.key, .AmountV ⟨q, c⟩)
  | .number q => .ok (kv.key, .Number q)

/-- `fn meta_kv`: collect the pairs of an `eol_kv_list` into a map. -/
def meta_kv (roots : List (AccountType × String)) : List KVSyn → Meta → Res Meta
  | [], m => .ok m
  | kv :: rest, m =>
      match meta_kv_pair roots kv with
      | .ok (k, v) => meta_kv roots rest (m.insert k v)
      | .err e => .err e
      | .panicked x => .panicked x

/-! ## Transaction bodies (`fn transaction_directive`) -/

/-- A child of a transaction body: a posting, a key-value line, a tag or a
link. -/
inductive BodyItem where
  | posting (p : PostingSyn)
  | key_value (kv : KVSyn)
  | tag (s : String)
  | link (s : String)
deriving DecidableEq, Repr

/-- Whether a body item is a posting. -/
def BodyItem.isPosting : BodyItem → Bool
  | .posting _ => true
  | _ => false

/-- Modify the last element of a list (`postings.last_mut()`). -/
def modifyLast (f : Posting → Posting) : List Posting → List Posting
  | [] => []
  | [p] => [f p]
  | p :: rest => p :: modifyLast f rest

/-- The body loop of `transaction_directive`: postings are appended in
order; a `key_value` is inserted into the metadata of the last posting when
one exists and into the transaction metadata otherwise; tags and links are
added to the respective sets. -/
def scan_body (roots : List (AccountType × String)) :
    List BodyItem → List Posting × Meta × List String × List String →
    Res (List Posting × Meta × List String × List String)
  | [], st => .ok st
  | .posting p :: rest, (ps, m, tg, lk) =>
      match posting roots p with
      | .ok post => scan_body roots rest (ps ++ [post], m, tg, lk)
      | .err e => .err e
      | .panicked x => .panicked x
  | .key_value kv :: rest, (ps, m, tg, lk) =>
      match meta_kv_pair roots kv with
      | .ok (k, v) =>
          match ps with
          | [] => scan_body roots rest (ps, m.insert k v, tg, lk)
          | _ :: _ =>
              scan_body roots rest
                (modifyLast (fun pp => { pp with meta := pp.meta.insert k v }) ps,
                  m, tg, lk)
      | .err e => .err e
      | .panicked x => .panicked x
  | .tag s :: rest, (ps, m, tg, lk) =>
      scan_body roots rest (ps, m, setInsert tg s, lk)
  | .link s :: rest, (ps, m, tg, lk) =>
      scan_body roots rest (ps, m, tg, setInsert lk s)

/-- A tag or link inside a `tags_links` parse node. -/
inductive TLSyn where
  | tag (s : String)
  | link (s : String)
deriving DecidableEq, Repr

/-- `fn tags_links`. -/
def tags_links (tl : List TLSyn) : List String × List String :=
  tl.foldl
    (fun acc t =>
      match t with
      | .tag s => (setInsert acc.1 s, acc.2)
      | .link s => (acc.1, setInsert acc.2 s))
    ([], [])

/-- A `transaction` parse node: date, flag token, the one or two quoted
header strings, the optional `tags_links` node, and the body children in
source order. -/
structure TxnSyn where
  date : String
  flag : String
  strings : List String
  header_tl : Option (List TLSyn)
  body : List BodyItem
  src : String
deriving DecidableEq, Repr

/-- Payee selection: with a single header string there is no payee; with
two, the first is the payee. -/
def txn_payee (first : String) : List String → Option String
  | [] => none
  | _ :: _ => some first

/-- Narration selection: the single header string, or the second of two. -/
def txn_narration (first : String) : List String → String
  | [] => first
  | second :: _ => second

/-- The tag/link sets of an optional `tags_links` header node. -/
def header_tags_links : Option (List TLSyn) → List String × List String
  | some tl => tags_links tl
  | none => ([], [])

/-- `fn transaction_directive`: split the header strings into payee and
narration, collect header tags/links, run the body loop, then union every
tag currently on the tag stack (`state.get_pushed_tags()`) into the tag
set. -/
def transaction_directive (roots : List (AccountType × String))
    (tagKeys : List String) (syn : TxnSyn) : Res Directive :=
  match syn.strings with
  | [] => .err (.invalidParserState "payee or narration")
  | first :: restStrings =>
    match scan_body roots syn.body
        ([], [], (header_tags_links syn.header_tl).1,
          (header_tags_links syn.header_tl).2) with
    | .ok (postings, tx_meta, tags1, links1) =>
        .ok (.Transaction
          ⟨syn.date, Flag.from syn.flag, txn_payee first restStrings,
            txn_narration first restStrings, tagKeys.foldl setInsert tags1,
            links1, postings, tx_meta, some syn.src⟩)
    | .err e => .err e
    | .panicked x => .panicked x

/-! ## Open, option, include directives -/

/-- Modelled from the spec: `Booking::try_from`, absent from the sources —
the trailing quoted string of an `open` is parsed case-insensitively into
the five booking methods; unknown strings are an error. -/
def booking_try_from (s : String) : Except Unit Booking :=
  match s.toLower with
  | "strict" => .ok .Strict
  | "none" => .ok .None
  | "average" => .ok .Average
  | "fifo" => .ok .Fifo
  | "lifo" => .ok .Lifo
  | _ => .error ()

/-- An `open` parse node. -/
structure OpenSyn where
  date : String
  account : AccountSyn
  currencies : List String
  booking : Option String
  meta : List KVSyn
  src : String
deriving DecidableEq, Repr

/-- `fn open_directive`: resolve the account, default the booking to
`Strict` when no quoted string follows, report unknown booking strings. -/
def open_directive (roots : List (AccountType × String)) (syn : OpenSyn) :
    Res Directive :=
  match account roots syn.account with
  | .error m => .err (.invalidInput m)
  | .ok acct =>
    match (match syn.booking with
      | none => (.ok Booking.Strict : Except String Booking)
      | some s =>
          match booking_try_from s with
          | .ok b => .ok b
          | .error _ => .error ("unknown booking method " ++ dq ++ s ++ dq)) with
    | .error m => .err (.invalidInput m)
    | .ok book =>
      match meta_kv roots syn.meta [] with
      | .ok m =>
          .ok (.Open ⟨syn.date, acct, syn.currencies, book, m, some syn.src⟩)
      | .err e => .err e
      | .panicked x => .panicked x

/-- Modelled from the spec: `BcOption::root_name_change`, absent from the
sources — the five `name_*` option names select the account type whose
root name the option value replaces. -/
def option_root_change (name val : String) : Option (AccountType × String) :=
  match name with
  | "name_assets" => some (.Assets, val)
  | "name_liabilities" => some (.Liabilities, val)
  | "name_equity" => some (.Equity, val)
  | "name_income" => some (.Income, val)
  | "name_expenses" => some (.Expenses, val)
  | _ => none

/-- `BcOption::root_name_change` on a constructed option directive. -/
def BcOption.root_name_change (o : BcOption) : Option (AccountType × String) :=
  option_root_change o.name o.val

/-- `HashMap::insert` into the root-name table. -/
def rootInsert (roots : List (AccountType × String)) (ty : AccountType)
    (name : String) : List (AccountType × String) :=
  if roots.any (fun p => p.1 = ty) then
    roots.map (fun p => if p.1 = ty then (ty, name) else p)
  else roots ++ [(ty, name)]

/-! ## The top-level parse loop (`fn parse`) -/

/-- A top-level item of a file: a `pushtag` line, a `poptag` line, or a
directive parse node (the variants the claims exercise; any other grammar
production maps to `Directive::Unsupported`). -/
inductive DirSyn where
  | option (name val src : String)
  | incl (filename src : String)
  | open_ (o : OpenSyn)
  | txn (t : TxnSyn)
  | unsupported
deriving DecidableEq, Repr

/-- `fn directive`: dispatch on the directive rule. -/
def directive (roots : List (AccountType × String)) (tagKeys : List String) :
    DirSyn → Res Directive
  | .option name val src => .ok (.Option ⟨name, val, some src⟩)
  | .incl filename src => .ok (.Include ⟨filename, some src⟩)
  | .open_ o => open_directive roots o
  | .txn t => transaction_directive roots tagKeys t
  | .unsupported => .ok .Unsupported

/-- A top-level item of the `file` production. -/
inductive Item where
  | pushtag (t : String)
  | poptag (t : String)
  | dir (d : DirSyn)
deriving DecidableEq, Repr

/-- Parse-level outcome carrying located errors. -/
inductive PRes (α : Type) where
  | ok (a : α)
  | err (e : ParseError)
  | panicked (msg : String)
deriving DecidableEq, Repr

/-- The state update of the parse loop after a constructed directive: a
`Directive::Option` carrying a root-name change replaces the binding of
that account type; everything else leaves the state unchanged. -/
def state_after_directive (st : ParseState) : Directive → ParseState
  | .Option o =>
      match o.root_name_change with
      | some (ty, nm) => ⟨rootInsert st.root_names ty nm, st.pushed_tags⟩
      | none => st
  | _ => st

/-- Whether a parse outcome is a value. -/
def PRes.isOk {α : Type} : PRes α → Bool
  | .ok _ => true
  | _ => false

/-- The directive loop of `fn parse`: `pushtag`/`poptag` mutate the tag
stack (a failed pop aborts with `InvalidInput` at the poptag's span);
any other item is constructed as a directive with the current state, a
root-renaming option updates the root-name table for the *following*
items, and the directive is appended. -/
def parseAux : ParseState → Nat → List Item →
    PRes (ParseState × List Directive)
  | st, _, [] => .ok (st, [])
  | st, i, .pushtag t :: rest =>
      parseAux ⟨st.root_names, push_tag st.pushed_tags t⟩ (i + 1) rest
  | st, i, .poptag t :: rest =>
      match pop_tag st.pushed_tags t with
      | .ok pt => parseAux ⟨st.root_names, pt⟩ (i + 1) rest
      | .error msg => .err ⟨.invalidInput msg, i⟩
  | st, i, .dir d :: rest =>
      match directive st.root_names (get_pushed_tags st.pushed_tags) d with
      | .ok dirv =>
          match parseAux (state_after_directive st dirv) (i + 1) rest with
          | .ok (stf, ds) => .ok (stf, dirv :: ds)
          | .err e => .err e
          | .panicked x => .panicked x
      | .err k => .err ⟨k, i⟩
      | .panicked x => .panicked x

/-- `Vec::join(", ")`. -/
def joinComma : List String → String
  | [] => ""
  | [s] => s
  | s :: rest => s ++ ", " ++ joinComma rest

/-- The message of the end-of-input unbalanced-tag error: every remaining
tag single-quoted, comma-separated. -/
def unbalancedMsg (pt : List (String × Nat)) : String :=
  joinComma ((get_pushed_tags pt).map (fun s => sq ++ s ++ sq))

/-- `fn parse`: run the loop; at end of input, if the joined list of
remaining pushed tags is non-empty, fail with `Unbalanced pushed tag(s)`
at the end-of-input span (item index `items.length`). -/
def parse (items : List Item) : PRes Ledger :=
  match parseAux initState 0 items with
  | .ok (st, ds) =>
      if unbalancedMsg st.pushed_tags = "" then .ok ⟨ds⟩
      else
        .err ⟨.invalidInput ("Unbalanced pushed tag(s): " ++ unbalancedMsg st.pushed_tags),
          items.length⟩
  | .err e => .err e
  | .panicked x => .panicked x

/-! ## Claim C2: tag-stack balance

The spec side: a pure scan of the pushtag/poptag operations (§4.5 of the
spec defines exactly the multiset semantics of `push_tag`/`pop_tag`),
ignoring every other item. -/

/-- Result of scanning only the tag operations of an item list: the final
multiset, or the first pop of an absent tag (with its item index). -/
inductive TagScan where
  | allOk (final : List (String × Nat))
  | popFail (i : Nat) (tag : String)
deriving DecidableEq, Repr

/-- Spec-side scan of the pushtag/poptag operations. -/
def tag_scan : List (String × Nat) → Nat → List Item → TagScan
  | pt, _, [] => .allOk pt
  | pt, i, .pushtag t :: rest => tag_scan (push_tag pt t) (i + 1) rest
  | pt, i, .poptag t :: rest =>
      match pop_tag pt t with
      | .ok pt' => tag_scan pt' (i + 1) rest
      | .error _ => .popFail i t
  | pt, i, .dir _ :: rest => tag_scan pt (i + 1) rest

/-- The root-name table after one directive item (only a root-renaming
option changes it). -/
def roots_after (roots : List (AccountType × String)) : DirSyn →
    List (AccountType × String)
  | .option name val _ =>
      match option_root_change name val with
      | some (ty, nm) => rootInsert roots ty nm
      | none => roots
  | _ => roots

/-- Every directive item of the list constructs successfully (no domain
error and no panic) when reached with its root-name table; tag operations
do not influence whether a directive constructs. -/
def dirs_ok : List (AccountType × String) → List Item → Prop
  | _, [] => True
  | roots, .pushtag _ :: rest => dirs_ok roots rest
  | roots, .poptag _ :: rest => dirs_ok roots rest
  | roots, .dir d :: rest =>
      (directive roots [] d).isOk = true ∧ dirs_ok (roots_after roots d) rest

/-- Forget the value of an outcome, keeping errors and panics. -/
def Res.shape {α : Type} : Res α → Res Unit
  | .ok _ => .ok ()
  | .err e => .err e
  | .panicked m => .panicked m

/-- Whether a directive constructs does not depend on the pushed tags: the
tag keys only enter the tag set of a successfully built transaction. -/
theorem directive_shape_tags (roots : List (AccountType × String))
    (tk tk' : List String) (d : DirSyn) :
    (directive roots tk d).shape = (directive roots tk' d).shape := by
  cases d with
  | option name val src => rfl
  | incl filename src => rfl
  | open_ o => rfl
  | unsupported => rfl
  | txn t =>
    simp only [directive, transaction_directive]
    cases t.strings with
    | nil => rfl
    | cons first restStrings =>
      cases hb : scan_body roots t.body ([], [], (header_tags_links t.header_tl).1,
          (header_tags_links t.header_tl).2) with
      | ok st => obtain ⟨ps, m, tg, lk⟩ := st; rfl
      | err e => rfl
      | panicked x => rfl

/-- A directive that constructs with one tag-key list constructs with any
other. -/
theorem directive_ok_of_ok_nil (roots : List (AccountType × String))
    (tk : List String) (d : DirSyn) (h : (directive roots [] d).isOk = true) :
    ∃ dirv, directive roots tk d = .ok dirv := by
  have hs := directive_shape_tags roots tk [] d
  cases hd : directive roots tk d with
  | ok dirv => exact ⟨dirv, rfl⟩
  | err e =>
    rw [hd] at hs
    cases hnil : directive roots [] d <;> rw [hnil] at hs h <;>
      simp [Res.shape, Res.isOk] at hs h
  | panicked m =>
    rw [hd] at hs
    cases hnil : directive roots [] d <;> rw [hnil] at hs h <;>
      simp [Res.shape, Res.isOk] at hs h

/-- A successful `open_directive` always builds an `Open` directive. -/
theorem open_directive_ok_shape (roots : List (AccountType × String))
    (o : OpenSyn) (dirv : Directive) (h : open_directive roots o = .ok dirv) :
    ∃ x, dirv = Directive.Open x := by
  unfold open_directive at h
  split at h
  · exact Res.noConfusion h
  · split at h
    · exact Res.noConfusion h
    · split at h
      · injection h with h
        exact ⟨_, h.symm⟩
      · exact Res.noConfusion h
      · exact Res.noConfusion h

/-- A successful `transaction_directive` always builds a `Transaction`. -/
theorem transaction_directive_ok_shape (roots : List (AccountType × String))
    (tk : List String) (t : TxnSyn) (dirv : Directive)
    (h : transaction_directive roots tk t = .ok dirv) :
    ∃ x, dirv = Directive.Transaction x := by
  unfold transaction_directive at h
  split at h
  · exact Res.noConfusion h
  · split at h
    · injection h with h
      exact ⟨_, h.symm⟩
    · exact Res.noConfusion h
    · exact Res.noConfusion h

/-- A successfully constructed directive drives the state update of the
parse loop to `roots_after` (only a root-renaming option changes the
table, and only an `option` item can construct a `Directive::Option`). -/
theorem directive_root_update (st : ParseState)
    (tk : List String) (d : DirSyn) (dirv : Directive)
    (h : directive st.root_names tk d = .ok dirv) :
    state_after_directive st dirv = ⟨roots_after st.root_names d, st.pushed_tags⟩ := by
  cases d with
  | option name val src =>
    injection h with h
    subst h
    simp only [state_after_directive, BcOption.root_name_change, roots_after]
    cases option_root_change name val with
    | some p => obtain ⟨ty, nm⟩ := p; rfl
    | none => rfl
  | incl filename src =>
    injection h with h
    subst h
    rfl
  | unsupported =>
    injection h with h
    subst h
    rfl
  | open_ o =>
    obtain ⟨x, hx⟩ := open_directive_ok_shape st.root_names o dirv h
    subst hx
    rfl
  | txn t =>
    obtain ⟨x, hx⟩ := transaction_directive_ok_shape st.root_names tk t dirv h
    subst hx
    rfl

/-- The message of a failed pop is always the absent-tag message. -/
theorem pop_tag_error_msg (pt : List (String × Nat)) (t : String) (msg : String)
    (h : pop_tag pt t = .error msg) :
    msg = "Attempting to pop absent tag: " ++ sq ++ t ++ sq := by
  unfold pop_tag at h
  split at h
  · split at h <;> exact Except.noConfusion h
  · injection h with h
    exact h.symm

/-- Characterization of the parse loop by the tag scan, provided every
directive item constructs: the loop succeeds exactly when the scan does,
with the scanned multiset as its final tag stack, and a failed scan makes
the loop fail with the absent-tag message at the failing poptag's index. -/
theorem parseAux_tag_char (items : List Item) :
    ∀ (st : ParseState) (i : Nat), dirs_ok st.root_names items →
    (∀ pt', tag_scan st.pushed_tags i items = .allOk pt' →
      ∃ stf ds, parseAux st i items = .ok (stf, ds) ∧ stf.pushed_tags = pt')
    ∧ (∀ j t, tag_scan st.pushed_tags i items = .popFail j t →
      parseAux st i items =
        .err ⟨.invalidInput ("Attempting to pop absent tag: " ++ sq ++ t ++ sq), j⟩) := by
  induction items with
  | nil =>
    intro st i _
    constructor
    · intro pt' h
      simp only [tag_scan, TagScan.allOk.injEq] at h
      exact ⟨st, [], rfl, h⟩
    · intro j t h
      exact TagScan.noConfusion h
  | cons it rest ih =>
    intro st i hdo
    cases it with
    | pushtag t =>
      simp only [tag_scan, parseAux]
      exact ih ⟨st.root_names, push_tag st.pushed_tags t⟩ (i + 1) hdo
    | poptag t =>
      simp only [tag_scan, parseAux]
      cases hp : pop_tag st.pushed_tags t with
      | ok pt2 =>
        exact ih ⟨st.root_names, pt2⟩ (i + 1) hdo
      | error msg =>
        constructor
        · intro pt' h
          exact TagScan.noConfusion h
        · intro j t' h
          injection h with h1 h2
          subst h1
          subst h2
          rw [pop_tag_error_msg st.pushed_tags t msg hp]
    | dir d =>
      simp only [dirs_ok] at hdo
      obtain ⟨hok, hrest⟩ := hdo
      obtain ⟨dirv, hd⟩ :=
        directive_ok_of_ok_nil st.root_names (get_pushed_tags st.pushed_tags) d hok
      have hupd := directive_root_update st (get_pushed_tags st.pushed_tags) d dirv hd
      simp only [tag_scan, parseAux, hd, hupd]
      have := ih ⟨roots_after st.root_names d, st.pushed_tags⟩ (i + 1) hrest
      constructor
      · intro pt' h
        obtain ⟨stf, ds, hpa, hpt⟩ := this.1 pt' h
        rw [hpa]
        exact ⟨stf, dirv :: ds, rfl, hpt⟩
      · intro j t h
        rw [this.2 j t h]

/-! The claim as stated quantifies over *every* input: it is refuted by any
input that fails for a reason other than the tag stack. -/

/-- A single open directive with the unknown root `Foobar`: no tag
operations at all (trivially balanced), yet `parse` fails. -/
def c2items : List Item :=
  [.dir (.open_ ⟨"2014-01-01", ⟨"Foobar", ["Cash"]⟩, [], none, [],
    "2014-01-01 open Foobar:Cash\n"⟩)]

/-- C2 counterexample: on `c2items` the pushtag/poptag operations balance
(the scan ends with an empty multiset) but `parse` does not succeed, so
"parse succeeds iff the tag operations balance" is false as stated. -/
theorem C2_counterexample :
    tag_scan [] 0 c2items = .allOk [] ∧ (parse c2items).isOk = false := by
  exact ⟨rfl, rfl⟩

/-- C2 (amended: among inputs whose directives all construct successfully —
the original claim's "for every input" also covers inputs rejected for
reasons unrelated to tags, see `C2_counterexample`).  Parse succeeds iff
the pushtag/poptag operations balance and every poptag names a
currently-pushed tag; a poptag of an absent tag fails with
`Attempting to pop absent tag: 'X'` at that poptag's index; and when the
scan leaves tags with positive count, parse fails at end of input with
`Unbalanced pushed tag(s): …` listing the remaining tags single-quoted and
comma-separated. -/
theorem C2_tag_stack_balance (items : List Item)
    (hdo : dirs_ok initial_root_names items) :
    ((parse items).isOk = true ↔ tag_scan [] 0 items = .allOk [])
    ∧ (∀ j t, tag_scan [] 0 items = .popFail j t →
        parse items =
          .err ⟨.invalidInput ("Attempting to pop absent tag: " ++ sq ++ t ++ sq), j⟩)
    ∧ (∀ fin, tag_scan [] 0 items = .allOk fin → fin ≠ [] →
        parse items =
          .err ⟨.invalidInput ("Unbalanced pushed tag(s): " ++ unbalancedMsg fin),
            items.length⟩) := by
  have hchar := parseAux_tag_char items initState 0 hdo
  have hmsg : ∀ fin : List (String × Nat), fin ≠ [] → unbalancedMsg fin ≠ "" := by
    intro fin hne
    match fin with
    | [] => exact absurd rfl hne
    | [p] =>
      show joinComma [sq ++ p.1 ++ sq] ≠ ""
      intro hc
      have := congrArg String.length hc
      simp [joinComma, String.length_append, sq] at this
    | p :: q :: rest =>
      show joinComma ((sq ++ p.1 ++ sq) :: (sq ++ q.1 ++ sq) ::
        (get_pushed_tags rest).map (fun s => sq ++ s ++ sq)) ≠ ""
      intro hc
      have := congrArg String.length hc
      simp [joinComma, String.length_append, sq] at this
  refine ⟨?_, ?_, ?_⟩
  · constructor
    · intro hok
      cases hts : tag_scan [] 0 items with
      | allOk fin =>
        by_cases hfin : fin = []
        · rw [hfin]
        · obtain ⟨stf, ds, hpa, hpt⟩ := hchar.1 fin hts
          unfold parse at hok
          rw [hpa] at hok
          simp only [hpt] at hok
          rw [if_neg (hmsg fin hfin)] at hok
          exact absurd hok (by simp [PRes.isOk])
      | popFail j t =>
        have := hchar.2 j t hts
        unfold parse at hok
        rw [this] at hok
        exact absurd hok (by simp [PRes.isOk])
    · intro hts
      obtain ⟨stf, ds, hpa, hpt⟩ := hchar.1 [] hts
      unfold parse
      rw [hpa]
      simp only [hpt]
      rw [if_pos (show unbalancedMsg [] = "" from rfl)]
      rfl
  · intro j t hts
    have := hchar.2 j t hts
    unfold parse
    rw [this]
  · intro fin hts hfin
    obtain ⟨stf, ds, hpa, hpt⟩ := hchar.1 fin hts
    unfold parse
    rw [hpa]
    simp only [hpt]
    rw [if_neg (hmsg fin hfin)]

/-- Witness for C2 at the concrete input `pushtag #a` (spec scenario S5):
parse fails with `Unbalanced pushed tag(s): 'a'` at end of input. -/
theorem C2_tag_stack_balance_witness :
    parse [Item.pushtag "a"] =
      .err ⟨.invalidInput ("Unbalanced pushed tag(s): " ++ sq ++ "a" ++ sq), 1⟩ := by
  have h := (C2_tag_stack_balance [Item.pushtag "a"] trivial).2.2
    [("a", 1)] rfl (by simp)
  simpa [unbalancedMsg, get_pushed_tags, joinComma] using h

/-! ## Claim C3: root-renaming scope -/

/-- Whether an item is an option directive that renames a root. -/
def item_renames : Item → Bool
  | .dir (.option name val _) => (option_root_change name val).isSome
  | _ => false

/-- No item of the list renames a root. -/
def no_root_rename (items : List Item) : Prop :=
  ∀ it ∈ items, item_renames it = false

/-- A non-renaming directive leaves the root table unchanged. -/
theorem roots_after_of_not_renames (roots : List (AccountType × String))
    (d : DirSyn) (h : item_renames (.dir d) = false) :
    roots_after roots d = roots := by
  cases d with
  | option name val src =>
    simp only [item_renames] at h
    cases hc : option_root_change name val with
    | some p => rw [hc] at h; simp at h
    | none => simp [roots_after, hc]
  | incl filename src => rfl
  | open_ o => rfl
  | txn t => rfl
  | unsupported => rfl

/-- A successful run of the parse loop over items none of which renames a
root leaves the root-name table unchanged. -/
theorem parseAux_roots_unchanged (items : List Item) :
    ∀ (st : ParseState) (i : Nat) (st2 : ParseState) (ds : List Directive),
    no_root_rename items → parseAux st i items = .ok (st2, ds) →
    st2.root_names = st.root_names := by
  induction items with
  | nil =>
    intro st i st2 ds _ h
    simp only [parseAux, PRes.ok.injEq, Prod.mk.injEq] at h
    rw [← h.1]
  | cons it rest ih =>
    intro st i st2 ds hnr h
    have hnr' : no_root_rename rest := fun x hx => hnr x (List.mem_cons_of_mem it hx)
    cases it with
    | pushtag t =>
      simp only [parseAux] at h
      exact ih ⟨st.root_names, push_tag st.pushed_tags t⟩ (i + 1) st2 ds hnr' h
    | poptag t =>
      cases hp : pop_tag st.pushed_tags t with
      | ok pt2 =>
        simp only [parseAux, hp] at h
        exact ih ⟨st.root_names, pt2⟩ (i + 1) st2 ds hnr' h
      | error msg =>
        simp only [parseAux, hp] at h
        exact PRes.noConfusion h
    | dir d =>
      cases hd : directive st.root_names (get_pushed_tags st.pushed_tags) d with
      | err k =>
        simp only [parseAux, hd] at h
        exact PRes.noConfusion h
      | panicked x =>
        simp only [parseAux, hd] at h
        exact PRes.noConfusion h
      | ok dirv =>
        cases hp : parseAux (state_after_directive st dirv) (i + 1) rest with
        | ok pr =>
          obtain ⟨stf, ds0⟩ := pr
          simp only [parseAux, hd, hp, PRes.ok.injEq, Prod.mk.injEq] at h
          have hst2 : stf = st2 := h.1
          have := ih (state_after_directive st dirv) (i + 1) stf ds0 hnr' hp
          rw [← hst2, this,
            directive_root_update st (get_pushed_tags st.pushed_tags) d dirv hd]
          exact roots_after_of_not_renames st.root_names d
            (hnr (.dir d) (List.mem_cons_self _ _))
        | err e =>
          simp only [parseAux, hd, hp] at h
          exact PRes.noConfusion h
        | panicked x =>
          simp only [parseAux, hd, hp] at h
          exact PRes.noConfusion h

/-- C3.  Root-renaming scope.  Along any run of the parse loop that has not
(yet) renamed a root: an account token rooted `Aktiver` is rejected with
the domain error `Invalid root account`; processing the item
`option "name_assets" "Aktiver"` then emits the option directive and
replaces the root name of `Assets` — for subsequent items only — after
which `Aktiver:…` tokens resolve to `type = Assets` with the written parts
and `Assets:…` tokens are rejected with `Invalid root account`. -/
theorem C3_root_renaming_scope (l1 : List Item) (st1 : ParseState)
    (ds1 : List Directive) (ps : List String) (i : Nat) (osrc : String)
    (hparse : parseAux initState 0 l1 = .ok (st1, ds1))
    (hnr : no_root_rename l1) :
    account st1.root_names ⟨"Aktiver", ps⟩ = .error "Invalid root account"
    ∧ parseAux st1 i [.dir (.option "name_assets" "Aktiver" osrc)] =
        .ok (⟨rootInsert initial_root_names .Assets "Aktiver", st1.pushed_tags⟩,
          [.Option ⟨"name_assets", "Aktiver", some osrc⟩])
    ∧ account (rootInsert initial_root_names .Assets "Aktiver") ⟨"Aktiver", ps⟩ =
        .ok ⟨.Assets, ps⟩
    ∧ account (rootInsert initial_root_names .Assets "Aktiver") ⟨"Assets", ps⟩ =
        .error "Invalid root account" := by
  have hroots : st1.root_names = initial_root_names :=
    parseAux_roots_unchanged l1 initState 0 st1 ds1 hnr hparse
  refine ⟨?_, ?_, ?_, ?_⟩
  · rw [hroots]
    rfl
  · simp only [parseAux, directive, state_after_directive, BcOption.root_name_change,
      option_root_change, hroots]
  · rfl
  · rfl

/-- Witness for C3 at the empty prefix (spec scenario S4: the state right
before `option "name_assets" "Aktiver"` is the initial one). -/
theorem C3_root_renaming_scope_witness :
    account initState.root_names ⟨"Aktiver", ["Cash"]⟩ =
        .error "Invalid root account"
    ∧ parseAux initState 0 [.dir (.option "name_assets" "Aktiver" "o")] =
        .ok (⟨rootInsert initial_root_names .Assets "Aktiver", initState.pushed_tags⟩,
          [.Option ⟨"name_assets", "Aktiver", some "o"⟩])
    ∧ account (rootInsert initial_root_names .Assets "Aktiver") ⟨"Aktiver", ["Cash"]⟩ =
        .ok ⟨.Assets, ["Cash"]⟩
    ∧ account (rootInsert initial_root_names .Assets "Aktiver") ⟨"Assets", ["Cash"]⟩ =
        .error "Invalid root account" := by
  exact C3_root_renaming_scope [] initState [] ["Cash"] 0 "o" rfl
    (fun it hit => absurd hit (List.not_mem_nil it))

/-! ## Claim C7: tag union -/

/-- Inserting keeps existing members. -/
theorem setInsert_mem_mono (acc : List String) (y x : String) (h : x ∈ acc) :
    x ∈ setInsert acc y := by
  unfold setInsert
  split
  · exact h
  · exact List.mem_append_left _ h

/-- The inserted element is a member. -/
theorem setInsert_mem_self (acc : List String) (y : String) :
    y ∈ setInsert acc y := by
  unfold setInsert
  split
  · assumption
  · exact List.mem_append_right _ (List.mem_singleton.mpr rfl)

/-- Folding `setInsert` over a list retains the list's members and the
accumulator's members. -/
theorem foldl_setInsert_mem (l : List String) :
    ∀ (acc : List String) (x : String), x ∈ l ∨ x ∈ acc →
      x ∈ l.foldl setInsert acc := by
  induction l with
  | nil =>
    intro acc x h
    simpa using h.resolve_left (List.not_mem_nil x)
  | cons y ys ih =>
    intro acc x h
    simp only [List.foldl_cons]
    rcases h with h | h
    · rcases List.mem_cons.mp h with h | h
      · exact ih (setInsert acc y) x (Or.inr (h ▸ setInsert_mem_self acc y))
      · exact ih (setInsert acc y) x (Or.inl h)
    · exact ih (setInsert acc y) x (Or.inr (setInsert_mem_mono acc y x h))

/-- Every tag key handed to `transaction_directive` ends up in the built
transaction's tag set (the union loop over `get_pushed_tags`). -/
theorem transaction_tags_union (roots : List (AccountType × String))
    (tagKeys : List String) (syn : TxnSyn) (t : Transaction)
    (h : transaction_directive roots tagKeys syn = .ok (.Transaction t)) :
    ∀ x ∈ tagKeys, x ∈ t.tags := by
  intro x hx
  unfold transaction_directive at h
  split at h
  · exact Res.noConfusion h
  · split at h
    · injection h with h
      injection h with h
      rw [← h]
      exact foldl_setInsert_mem tagKeys _ x (Or.inl hx)
    · exact Res.noConfusion h
    · exact Res.noConfusion h

/-- Pushing any tag keeps every present key present. -/
theorem push_tag_mem_mono (pt : List (String × Nat)) (b a : String)
    (h : a ∈ get_pushed_tags pt) : a ∈ get_pushed_tags (push_tag pt b) := by
  have hfst : ∀ p : String × Nat,
      (if p.1 = b then (p.1, p.2 + 1) else p).1 = p.1 := by
    intro p
    split <;> rfl
  unfold push_tag
  split
  · unfold get_pushed_tags at h ⊢
    rw [List.map_map]
    rcases List.mem_map.mp h with ⟨p, hp, hpa⟩
    refine List.mem_map.mpr ⟨p, hp, ?_⟩
    show (if p.1 = b then (p.1, p.2 + 1) else p).1 = a
    rw [hfst p, hpa]
  · unfold get_pushed_tags at h ⊢
    rw [List.map_append]
    exact List.mem_append_left _ h

/-- The pushed tag's key is present after the push. -/
theorem push_tag_mem_self (pt : List (String × Nat)) (a : String) :
    a ∈ get_pushed_tags (push_tag pt a) := by
  unfold push_tag
  split
  · rename_i hany
    rcases List.any_eq_true.mp hany with ⟨p, hp, hpa⟩
    have hpa' : p.1 = a := by simpa using hpa
    unfold get_pushed_tags
    rw [List.map_map]
    exact List.mem_map.mpr ⟨p, hp, by simp [hpa']⟩
  · unfold get_pushed_tags
    rw [List.map_append]
    exact List.mem_append_right _ (by simp)

/-- Popping a different tag keeps a present key present. -/
theorem pop_tag_mem_of_ne (pt pt' : List (String × Nat)) (b a : String)
    (hne : b ≠ a) (hp : pop_tag pt b = .ok pt')
    (h : a ∈ get_pushed_tags pt) : a ∈ get_pushed_tags pt' := by
  unfold pop_tag at hp
  split at hp
  · split at hp <;> injection hp with hp <;> rw [← hp] <;>
      unfold get_pushed_tags at h ⊢
    · rcases List.mem_map.mp h with ⟨p, hpmem, hpa⟩
      refine List.mem_map.mpr ⟨p, List.mem_filter.mpr ⟨hpmem, ?_⟩, hpa⟩
      simp only [decide_eq_true_eq]
      rw [hpa]
      exact fun hc => hne hc.symm
    · have hfst : ∀ q : String × Nat,
          (if q.1 = b then (q.1, q.2 - 1) else q).1 = q.1 := by
        intro q
        split <;> rfl
      rw [List.map_map]
      rcases List.mem_map.mp h with ⟨p, hpmem, hpa⟩
      refine List.mem_map.mpr ⟨p, hpmem, ?_⟩
      show (if p.1 = b then (p.1, p.2 - 1) else p).1 = a
      rw [hfst p, hpa]
  · exact Except.noConfusion hp

/-- The parse state update after a directive never touches the tag stack. -/
theorem state_after_directive_pushed (st : ParseState) (dirv : Directive) :
    (state_after_directive st dirv).pushed_tags = st.pushed_tags := by
  cases dirv with
  | Option o =>
    simp only [state_after_directive]
    cases o.root_name_change with
    | some p => obtain ⟨ty, nm⟩ := p; rfl
    | none => rfl
  | Include i => rfl
  | Open o => rfl
  | Transaction t => rfl
  | Unsupported => rfl

/-- While a tag key stays on the stack (no poptag of it occurs), every
transaction directive the parse loop emits carries it. -/
theorem parseAux_tag_member (l2 : List Item) :
    ∀ (st : ParseState) (j : Nat) (st2 : ParseState) (ds2 : List Directive)
      (a : String),
    a ∈ get_pushed_tags st.pushed_tags →
    (∀ it ∈ l2, it ≠ .poptag a) →
    parseAux st j l2 = .ok (st2, ds2) →
    ∀ t : Transaction, .Transaction t ∈ ds2 → a ∈ t.tags := by
  induction l2 with
  | nil =>
    intro st j st2 ds2 a _ _ h t ht
    simp only [parseAux, PRes.ok.injEq, Prod.mk.injEq] at h
    rw [← h.2] at ht
    exact absurd ht (List.not_mem_nil _)
  | cons it rest ih =>
    intro st j st2 ds2 a hmem hnp h
    have hnp' : ∀ x ∈ rest, x ≠ Item.poptag a :=
      fun x hx => hnp x (List.mem_cons_of_mem it hx)
    cases it with
    | pushtag b =>
      simp only [parseAux] at h
      exact ih ⟨st.root_names, push_tag st.pushed_tags b⟩ (j + 1) st2 ds2 a
        (push_tag_mem_mono st.pushed_tags b a hmem) hnp' h
    | poptag b =>
      have hne : b ≠ a := by
        intro hc
        exact hnp (.poptag b) (List.mem_cons_self _ _) (by rw [hc])
      cases hp : pop_tag st.pushed_tags b with
      | ok pt2 =>
        simp only [parseAux, hp] at h
        exact ih ⟨st.root_names, pt2⟩ (j + 1) st2 ds2 a
          (pop_tag_mem_of_ne st.pushed_tags pt2 b a hne hp hmem) hnp' h
      | error msg =>
        simp only [parseAux, hp] at h
        exact PRes.noConfusion h
    | dir d =>
      cases hd : directive st.root_names (get_pushed_tags st.pushed_tags) d with
      | err k =>
        simp only [parseAux, hd] at h
        exact PRes.noConfusion h
      | panicked x =>
        simp only [parseAux, hd] at h
        exact PRes.noConfusion h
      | ok dirv =>
        cases hp : parseAux (state_after_directive st dirv) (j + 1) rest with
        | ok pr =>
          obtain ⟨stf, ds0⟩ := pr
          simp only [parseAux, hd, hp, PRes.ok.injEq, Prod.mk.injEq] at h
          intro t ht
          rw [← h.2] at ht
          rcases List.mem_cons.mp ht with ht | ht
          · cases d with
            | option name val src =>
              injection hd with hd
              rw [← hd] at ht
              exact absurd ht.symm (by simp)
            | incl filename src =>
              injection hd with hd
              rw [← hd] at ht
              exact absurd ht.symm (by simp)
            | unsupported =>
              injection hd with hd
              rw [← hd] at ht
              exact absurd ht.symm (by simp)
            | open_ o =>
              obtain ⟨x, hx⟩ :=
                open_directive_ok_shape st.root_names o dirv hd
              rw [hx] at ht
              exact absurd ht.symm (by simp)
            | txn syn =>
              have hdt : transaction_directive st.root_names
                  (get_pushed_tags st.pushed_tags) syn = .ok (.Transaction t) := by
                rw [← ht] at hd
                exact hd
              exact transaction_tags_union st.root_names
                (get_pushed_tags st.pushed_tags) syn t hdt a hmem
          · have hmem' : a ∈ get_pushed_tags
                (state_after_directive st dirv).pushed_tags := by
              rw [state_after_directive_pushed]
              exact hmem
            exact ih (state_after_directive st dirv) (j + 1) stf ds0 a hmem'
              hnp' hp t ht
        | err e =>
          simp only [parseAux, hd, hp] at h
          exact PRes.noConfusion h
        | panicked x =>
          simp only [parseAux, hd, hp] at h
          exact PRes.noConfusion h

/-- C7.  Tag union.  (1) Every tag key currently on the tag stack (the
stack's key set is exactly the tags with positive count) is unioned into
every transaction a `transaction_directive` call builds, on top of the
tags written on the transaction itself; and (2) after a `pushtag #a`,
every transaction the parse loop emits before a matching `poptag #a`
(i.e. along any item suffix containing no poptag of `a`) carries `a` in
its tag set. -/
theorem C7_tag_union :
    (∀ (roots : List (AccountType × String)) (tagKeys : List String)
      (syn : TxnSyn) (t : Transaction),
      transaction_directive roots tagKeys syn = .ok (.Transaction t) →
      ∀ x ∈ tagKeys, x ∈ t.tags)
    ∧ (∀ (a : String) (l2 : List Item) (st : ParseState) (j : Nat)
        (st2 : ParseState) (ds2 : List Directive),
      (∀ it ∈ l2, it ≠ .poptag a) →
      parseAux ⟨st.root_names, push_tag st.pushed_tags a⟩ j l2 = .ok (st2, ds2) →
      ∀ t : Transaction, .Transaction t ∈ ds2 → a ∈ t.tags) := by
  constructor
  · exact transaction_tags_union
  · intro a l2 st j st2 ds2 hnp h
    exact parseAux_tag_member l2 ⟨st.root_names, push_tag st.pushed_tags a⟩ j
      st2 ds2 a (push_tag_mem_self st.pushed_tags a) hnp h

/-- Concrete transaction node for the C7 witness (spec scenario S2's
transaction, with an empty body posting list simplified to one posting). -/
def c7syn : TxnSyn :=
  ⟨"2014-05-05", "txn", ["Cafe Mogador", "Lamb tagine with wine"], none,
    [.posting ⟨none, ⟨"Liabilities", ["CreditCard"]⟩,
      some ⟨some 10, some "USD"⟩, none, none⟩], "txnsrc"⟩

/-- The transaction that parsing `c7syn` under a pushed `social` tag
produces. -/
def c7trans : Transaction :=
  ⟨"2014-05-05", .Okay, some "Cafe Mogador", "Lamb tagine with wine",
    ["social"], [],
    [⟨⟨.Liabilities, ["CreditCard"]⟩, ⟨some 10, some "USD"⟩, none, none, none, []⟩],
    [], some "txnsrc"⟩

/-- Witness for C7: after `pushtag #social`, a transaction parsed before
any `poptag #social` carries the tag `social`. -/
theorem C7_tag_union_witness :
    parseAux ⟨initState.root_names, push_tag initState.pushed_tags "social"⟩ 1
        [.dir (.txn c7syn)] =
      .ok (⟨initState.root_names, push_tag initState.pushed_tags "social"⟩,
        [.Transaction c7trans])
    ∧ "social" ∈ c7trans.tags := by
  refine ⟨rfl, ?_⟩
  exact C7_tag_union.2 "social" [.dir (.txn c7syn)] initState 1 _ _
    (by intro it hit
        rcases List.mem_cons.mp hit with h | h
        · rw [h]; intro hc; exact Item.noConfusion hc
        · exact absurd h (List.not_mem_nil it))
    rfl _ (List.mem_singleton.mpr rfl)

/-! ## Claim C6: metadata attachment in transaction bodies

The spec side, following the spec's words: the key-value lines that precede
all postings belong to the transaction itself; each posting owns the
key-value lines that follow it up to the next posting; postings are kept in
source order. -/

/-- Split a transaction body into the leading non-posting items and the
list of postings each paired with its following segment of non-posting
items. -/
def split_body : List BodyItem → List BodyItem × List (PostingSyn × List BodyItem)
  | [] => ([], [])
  | .posting p :: rest =>
      ([], (p, (split_body rest).1) :: (split_body rest).2)
  | .key_value kv :: rest =>
      (.key_value kv :: (split_body rest).1, (split_body rest).2)
  | .tag s :: rest =>
      (.tag s :: (split_body rest).1, (split_body rest).2)
  | .link s :: rest =>
      (.link s :: (split_body rest).1, (split_body rest).2)

/-- Fold a leading segment into the transaction metadata (tags and links go
to the transaction sets; a segment produced by `split_body` contains no
postings, so the posting arm is dead and skips). -/
def seg_tx (roots : List (AccountType × String)) :
    List BodyItem → Meta × List String × List String →
    Res (Meta × List String × List String)
  | [], acc => .ok acc
  | .key_value kv :: rest, (m, tg, lk) =>
      match meta_kv_pair roots kv with
      | .ok (k, v) => seg_tx roots rest (m.insert k v, tg, lk)
      | .err e => .err e
      | .panicked x => .panicked x
  | .tag s :: rest, (m, tg, lk) => seg_tx roots rest (m, setInsert tg s, lk)
  | .link s :: rest, (m, tg, lk) => seg_tx roots rest (m, tg, setInsert lk s)
  | .posting _ :: rest, acc => seg_tx roots rest acc

/-- Fold a posting's own segment into that posting's metadata. -/
def seg_post (roots : List (AccountType × String)) :
    List BodyItem → Posting × List String × List String →
    Res (Posting × List String × List String)
  | [], acc => .ok acc
  | .key_value kv :: rest, (post, tg, lk) =>
      match meta_kv_pair roots kv with
      | .ok (k, v) =>
          seg_post roots rest ({ post with meta := post.meta.insert k v }, tg, lk)
      | .err e => .err e
      | .panicked x => .panicked x
  | .tag s :: rest, (post, tg, lk) => seg_post roots rest (post, setInsert tg s, lk)
  | .link s :: rest, (post, tg, lk) => seg_post roots rest (post, tg, setInsert lk s)
  | .posting _ :: rest, acc => seg_post roots rest acc

/-- Construct the postings group by group, in source order, each carrying
exactly the metadata of its own segment. -/
def groups_loop (roots : List (AccountType × String)) :
    List (PostingSyn × List BodyItem) →
    List Posting × Meta × List String × List String →
    Res (List Posting × Meta × List String × List String)
  | [], acc => .ok acc
  | (p, seg) :: rest, (ps, m, tg, lk) =>
      match posting roots p with
      | .ok post =>
          match seg_post roots seg (post, tg, lk) with
          | .ok (post', tg', lk') =>
              groups_loop roots rest (ps ++ [post'], m, tg', lk')
          | .err e => .err e
          | .panicked x => .panicked x
      | .err e => .err e
      | .panicked x => .panicked x

/-- The spec-side description of a transaction body: transaction metadata
from the leading segment, then the postings in source order, each owning
its own segment's key-values. -/
def spec_scan (roots : List (AccountType × String)) (body : List BodyItem)
    (m0 : Meta) (tg0 lk0 : List String) :
    Res (List Posting × Meta × List String × List String) :=
  match seg_tx roots (split_body body).1 (m0, tg0, lk0) with
  | .ok (m, tg, lk) => groups_loop roots (split_body body).2 ([], m, tg, lk)
  | .err e => .err e
  | .panicked x => .panicked x

/-- `modifyLast` on a snoc list modifies exactly the snocced element. -/
theorem modifyLast_append_singleton (f : Posting → Posting) (l : List Posting)
    (p : Posting) : modifyLast f (l ++ [p]) = l ++ [f p] := by
  induction l with
  | nil => rfl
  | cons q qs ih =>
    cases qs with
    | nil => rfl
    | cons r rs =>
      show modifyLast f (q :: ((r :: rs) ++ [p])) = q :: ((r :: rs) ++ [f p])
      rw [show ((r :: rs) ++ [p]) = r :: (rs ++ [p]) from rfl]
      rw [show modifyLast f (q :: r :: (rs ++ [p]))
            = q :: modifyLast f (r :: (rs ++ [p])) from rfl]
      rw [show (r :: (rs ++ [p])) = ((r :: rs) ++ [p]) from rfl]
      rw [ih]
/-- After at least one posting has been seen, the body loop attaches every
key-value of the current segment to the most recent posting and then
continues with the remaining groups. -/
theorem scan_body_after_first_posting (roots : List (AccountType × String))
    (body : List BodyItem) :
    ∀ (ps : List Posting) (post : Posting) (m : Meta) (tg lk : List String),
    scan_body roots body (ps ++ [post], m, tg, lk) =
      match seg_post roots (split_body body).1 (post, tg, lk) with
      | .ok (post', tg', lk') =>
          groups_loop roots (split_body body).2 (ps ++ [post'], m, tg', lk')
      | .err e => .err e
      | .panicked x => .panicked x := by
  induction body with
  | nil =>
    intro ps post m tg lk
    rfl
  | cons it rest ih =>
    intro ps post m tg lk
    cases it with
    | posting p2 =>
      cases hpost : posting roots p2 with
      | ok post2 =>
        simp only [scan_body, split_body, seg_post, groups_loop, hpost]
        rw [ih (ps ++ [post]) post2 m tg lk]
      | err e =>
        simp only [scan_body, split_body, seg_post, groups_loop, hpost]
      | panicked x =>
        simp only [scan_body, split_body, seg_post, groups_loop, hpost]
    | key_value kv =>
      cases hkv : meta_kv_pair roots kv with
      | ok pr =>
        obtain ⟨k, v⟩ := pr
        have hred : scan_body roots (.key_value kv :: rest) (ps ++ [post], m, tg, lk)
            = scan_body roots rest
                (ps ++ [{ post with meta := post.meta.insert k v }], m, tg, lk) := by
          cases ps with
          | nil =>
            simp only [scan_body, hkv, List.nil_append]
            exact rfl
          | cons q qs =>
            simp only [scan_body, hkv, List.cons_append]
            rw [show (q :: (qs ++ [post])) = ((q :: qs) ++ [post]) from rfl,
              modifyLast_append_singleton]
            exact rfl
        rw [hred, ih ps { post with meta := post.meta.insert k v } m tg lk]
        simp only [split_body, seg_post, hkv]
      | err e =>
        have hred : scan_body roots (.key_value kv :: rest) (ps ++ [post], m, tg, lk)
            = .err e := by
          cases ps with
          | nil => simp only [scan_body, hkv, List.nil_append]
          | cons q qs => simp only [scan_body, hkv, List.cons_append]
        rw [hred]
        simp only [split_body, seg_post, hkv]
      | panicked x =>
        have hred : scan_body roots (.key_value kv :: rest) (ps ++ [post], m, tg, lk)
            = .panicked x := by
          cases ps with
          | nil => simp only [scan_body, hkv, List.nil_append]
          | cons q qs => simp only [scan_body, hkv, List.cons_append]
        rw [hred]
        simp only [split_body, seg_post, hkv]
    | tag s =>
      simp only [scan_body, split_body, seg_post]
      exact ih ps post m (setInsert tg s) lk
    | link s =>
      simp only [scan_body, split_body, seg_post]
      exact ih ps post m tg (setInsert lk s)

/-- C6.  Metadata attachment in transaction bodies: the body loop of
`transaction_directive` (`scan_body`, which inserts a key-value into the
most recently appended posting when one exists and into the transaction
metadata otherwise) computes exactly the spec-side description
(`spec_scan`): key-values before the first posting belong to the
transaction, each later key-value belongs to the most recently seen
posting's own segment, and the postings appear in source order. -/
theorem C6_metadata_attachment (roots : List (AccountType × String))
    (body : List BodyItem) :
    ∀ (m0 : Meta) (tg0 lk0 : List String),
    scan_body roots body ([], m0, tg0, lk0) = spec_scan roots body m0 tg0 lk0 := by
  induction body with
  | nil =>
    intro m0 tg0 lk0
    rfl
  | cons it rest ih =>
    intro m0 tg0 lk0
    cases it with
    | posting p =>
      cases hpost : posting roots p with
      | ok post =>
        simp only [scan_body, spec_scan, split_body, seg_tx, seg_post,
          groups_loop, hpost, List.nil_append]
        rw [show ([post] : List Posting) = [] ++ [post] from rfl,
          scan_body_after_first_posting roots rest [] post m0 tg0 lk0]
        cases seg_post roots (split_body rest).1 (post, tg0, lk0) with
        | ok pr => obtain ⟨post', tg', lk'⟩ := pr; simp
        | err e => rfl
        | panicked x => rfl
      | err e =>
        simp only [scan_body, spec_scan, split_body, seg_tx, groups_loop, hpost]
      | panicked x =>
        simp only [scan_body, spec_scan, split_body, seg_tx, groups_loop, hpost]
    | key_value kv =>
      cases hkv : meta_kv_pair roots kv with
      | ok pr =>
        obtain ⟨k, v⟩ := pr
        simp only [scan_body, spec_scan, split_body, seg_tx, hkv]
        rw [ih (m0.insert k v) tg0 lk0]
        simp only [spec_scan]
      | err e =>
        simp only [scan_body, spec_scan, split_body, seg_tx, hkv]
      | panicked x =>
        simp only [scan_body, spec_scan, split_body, seg_tx, hkv]
    | tag s =>
      simp only [scan_body, spec_scan, split_body, seg_tx]
      exact ih m0 (setInsert tg0 s) lk0
    | link s =>
      simp only [scan_body, spec_scan, split_body, seg_tx]
      exact ih m0 tg0 (setInsert lk0 s)
/-! ## Claim C8: numeric expression evaluation

The `num_expr` evaluator (`beancount-parser/src/lib.rs`) runs pest's
`PrattParser` over the flat children of a `num_expr` node with the table
`PRATT_PARSER`: infix `add`/`sub` left-associative at the lowest level,
infix `multiply`/`divide` left-associative above them, prefix `neg`/`pos`
binding tightest; `map_primary` evaluates a number or a nested
parenthesized `num_expr`, `map_prefix` negates or passes through, and
`map_infix` applies `+ - * /` on decimals.

The grammar file is absent from the sources, so the shape of a `num_expr`
node is modelled from the spec (§4.1): a primary is a number or a
parenthesized sub-expression; a factor is a primary with its prefix
operators; the node is a factor followed by operator/factor pairs.
Decimals are modelled as exact rationals; `rust_decimal` division rounds at
its 28-digit precision (allowed by the claim) and this model's division is
exact on both sides. -/

/-- Prefix operators (`Rule::neg`, `Rule::pos`). -/
inductive UnOp where
  | neg
  | pos
deriving DecidableEq, Repr

/-- Infix operators (`Rule::add`, `Rule::subtract`, `Rule::multiply`,
`Rule::divide`). -/
inductive BinOp where
  | add
  | sub
  | mul
  | div
deriving DecidableEq, Repr

/-- A primary of a `num_expr`: a number token (already converted to its
decimal value) or a parenthesized nested `num_expr`, given as its leading
factor and its operator/factor tail. -/
inductive NumPrim where
  | lit (q : ℚ)
  | paren (f : List UnOp × NumPrim) (t : List (BinOp × (List UnOp × NumPrim)))

/-- A factor: prefix operators applied to a primary. -/
abbrev NumFactor : Type := List UnOp × NumPrim

/-- `map_prefix`: `neg` flips the sign (`set_sign_positive`), `pos` is the
identity. -/
def applyUn : UnOp → ℚ → ℚ
  | .neg, v => -v
  | .pos, v => v

/-- `map_infix`: `+ - * /` on decimals (modelled on rationals; division by
zero, which panics in `rust_decimal`, is the junk value 0 on both sides of
the comparison). -/
def applyBin : BinOp → ℚ → ℚ → ℚ
  | .add, a, b => a + b
  | .sub, a, b => a - b
  | .mul, a, b => a * b
  | .div, a, b => a / b

/-- The precedence table of `PRATT_PARSER`: `add`/`sub` at the first
(lowest) level, `multiply`/`divide` at the next; both levels are
`Assoc::Left`. -/
def prec : BinOp → Nat
  | .add => 1
  | .sub => 1
  | .mul => 2
  | .div => 2

/-! The evaluator: pest's `PrattParser` performs standard precedence
climbing over the flat pair sequence (modelled from pest's documented
behavior; the crate itself is an external dependency), calling the
`map_primary`/`map_prefix`/`map_infix` closures of `fn num_expr`.  The
functions are fueled to stay structurally recursive; the equivalence
theorem shows any fuel above the term size suffices. -/

mutual

/-- `map_primary`: a number's value, or the evaluation of a nested
parenthesized `num_expr`. -/
def pratt_prim : Nat → NumPrim → Option ℚ
  | 0, _ => none
  | _ + 1, .lit q => some q
  | n + 1, .paren f t => pratt_seq (n + 1) f t

/-- A factor: evaluate the primary, then apply the prefix operators from
the innermost outwards. -/
def pratt_factor : Nat → NumFactor → Option ℚ
  | 0, _ => none
  | n + 1, (ops, p) => (pratt_prim n p).map (fun v => ops.foldr applyUn v)

/-- The precedence-climbing loop: consume operators of precedence at least
`min`, parsing each right-hand side at level `prec op + 1`
(left-associativity). -/
def pratt_climb : Nat → Nat → ℚ → List (BinOp × NumFactor) →
    Option (ℚ × List (BinOp × NumFactor))
  | 0, _, _, _ => none
  | _ + 1, _, lhs, [] => some (lhs, [])
  | n + 1, min, lhs, (op, f) :: r =>
      if prec op < min then some (lhs, (op, f) :: r)
      else
        match pratt_factor n f with
        | none => none
        | some rhs0 =>
          match pratt_climb n (prec op + 1) rhs0 r with
          | none => none
          | some (rhs, r1) =>
              pratt_climb n min (applyBin op lhs rhs) r1

/-- Evaluate a whole `num_expr` node: leading factor, then climb from the
lowest precedence level. -/
def pratt_seq : Nat → NumFactor → List (BinOp × NumFactor) → Option ℚ
  | 0, _, _ => none
  | n + 1, f, t =>
      match pratt_factor n f with
      | none => none
      | some lhs =>
        match pratt_climb n 1 lhs t with
        | none => none
        | some (v, _) => some v

end

/-- Climbing at a level above every operator's precedence consumes
nothing. -/
theorem pratt_climb_top (n : Nat) (acc : ℚ) (l : List (BinOp × NumFactor))
    (hn : 0 < n) : pratt_climb n 3 acc l = some (acc, l) := by
  match n, hn with
  | n' + 1, _ =>
    cases l with
    | nil => simp [pratt_climb]
    | cons p r =>
      obtain ⟨op, f⟩ := p
      cases op <;> simp [pratt_climb, prec]

/-- A suffix of a list never has larger `sizeOf`. -/
theorem sizeOf_le_of_suffix {α : Type} [SizeOf α] {l1 l2 : List α}
    (h : l1 <:+ l2) : sizeOf l1 ≤ sizeOf l2 := by
  obtain ⟨pre, rfl⟩ := h
  induction pre with
  | nil => simp
  | cons a t ih =>
    rw [List.cons_append, List.cons.sizeOf_spec]
    omega

/-- Lists always have positive size. -/
theorem list_sizeOf_pos {α : Type} [SizeOf α] (l : List α) : 0 < sizeOf l := by
  cases l with
  | nil => simp
  | cons a t => simp_arith

/-- Factors always have positive size. -/
theorem numFactor_sizeOf_pos (f : NumFactor) : 0 < sizeOf f := by
  obtain ⟨ops, p⟩ := f
  simp_arith

/-! The standard mathematical interpretation, following the spec's words
(§4.1/§4.3): a factor is its primary with the prefix signs applied; a
*term* is a maximal run of `* /` applications, folded from the left; the
expression folds the terms with `+ -` from the left; parenthesized
sub-expressions bind tightest. -/

mutual

/-- Standard interpretation of a primary. -/
def ref_prim : NumPrim → ℚ
  | .lit q => q
  | .paren f t => ref_seq f t
termination_by p => sizeOf p
decreasing_by
  all_goals simp_wf

/-- Standard interpretation of a factor: prefix signs applied innermost
first. -/
def ref_factor : NumFactor → ℚ
  | (ops, p) => ops.foldr applyUn (ref_prim p)
termination_by f => sizeOf f
decreasing_by
  all_goals simp_wf

/-- Fold the maximal leading run of `* /` operations (one term); return
its value and the unconsumed remainder, which starts with `+ -` when
non-empty. -/
def ref_term : ℚ → (l : List (BinOp × NumFactor)) →
    ℚ × { r : List (BinOp × NumFactor) // r <:+ l }
  | acc, [] => (acc, ⟨[], List.suffix_refl _⟩)
  | acc, (op, f) :: r =>
      if prec op = 2 then
        match ref_term (applyBin op acc (ref_factor f)) r with
        | (t1, ⟨r1, h1⟩) => (t1, ⟨r1, h1.trans (List.suffix_cons (op, f) r)⟩)
      else (acc, ⟨(op, f) :: r, List.suffix_refl _⟩)
termination_by _ l => sizeOf l
decreasing_by
  all_goals simp_wf
  all_goals try omega

/-- Fold the remaining terms with their leading `+ -` operators from the
left. -/
def ref_expr : ℚ → List (BinOp × NumFactor) → ℚ
  | acc, [] => acc
  | acc, (op, f) :: r =>
      match ref_term (ref_factor f) r with
      | (t1, ⟨r1, _h1⟩) => ref_expr (applyBin op acc t1) r1
termination_by _ l => sizeOf l
decreasing_by
  all_goals simp_wf
  all_goals try omega
  all_goals (have h2 := sizeOf_le_of_suffix _h1
             have h3 := numFactor_sizeOf_pos f
             omega)

/-- Standard interpretation of a whole `num_expr` node. -/
def ref_seq : NumFactor → List (BinOp × NumFactor) → ℚ
  | f, t =>
      match ref_term (ref_factor f) t with
      | (t1, ⟨r1, _h1⟩) => ref_expr t1 r1
termination_by f t => sizeOf f + sizeOf t
decreasing_by
  all_goals simp_wf
  all_goals try (have h4 := numFactor_sizeOf_pos f; omega)
  all_goals try (have h5 := list_sizeOf_pos t; omega)
  all_goals (have h2 := sizeOf_le_of_suffix _h1
             have h3 := numFactor_sizeOf_pos f
             omega)

end

/-- The remainder returned by `ref_term` is stable: running `ref_term` on
it again consumes nothing (its head is never a `* /` operator). -/
theorem ref_term_rest_stable (l : List (BinOp × NumFactor)) :
    ∀ acc acc' : ℚ,
      (ref_term acc' ((ref_term acc l).2.1)).1 = acc'
      ∧ (ref_term acc' ((ref_term acc l).2.1)).2.1 = (ref_term acc l).2.1 := by
  induction l with
  | nil =>
    intro acc acc'
    rw [show ref_term acc ([] : List (BinOp × NumFactor)) =
      (acc, ⟨[], List.suffix_refl _⟩) from by rw [ref_term]]
    show (ref_term acc' []).1 = acc' ∧ (ref_term acc' []).2.1 = []
    rw [ref_term]
    exact ⟨rfl, rfl⟩
  | cons p r ih =>
    intro acc acc'
    obtain ⟨op, f⟩ := p
    by_cases hp : prec op = 2
    · have hrw : (ref_term acc ((op, f) :: r)).2.1 =
          (ref_term (applyBin op acc (ref_factor f)) r).2.1 := by
        rw [ref_term, if_pos hp]
      rw [hrw]
      exact ih (applyBin op acc (ref_factor f)) acc'
    · have hrw : (ref_term acc ((op, f) :: r)).2.1 = (op, f) :: r := by
        rw [ref_term, if_neg hp]
      rw [hrw, ref_term, if_neg hp]
      exact ⟨rfl, rfl⟩

/-- The precedence-climbing evaluator of the source agrees with the
standard layered interpretation, at every fuel above the node size
(joint strong induction over all five functions). -/
theorem pratt_ref_agree : ∀ k : Nat,
    (∀ p : NumPrim, sizeOf p ≤ k → ∀ n : Nat, sizeOf p < n →
      pratt_prim n p = some (ref_prim p))
    ∧ (∀ f : NumFactor, sizeOf f ≤ k → ∀ n : Nat, sizeOf f < n →
      pratt_factor n f = some (ref_factor f))
    ∧ (∀ l : List (BinOp × NumFactor), sizeOf l ≤ k → ∀ (acc : ℚ) (n : Nat),
      sizeOf l < n →
      pratt_climb n 2 acc l = some ((ref_term acc l).1, (ref_term acc l).2.1))
    ∧ (∀ l : List (BinOp × NumFactor), sizeOf l ≤ k → ∀ (acc : ℚ) (n : Nat),
      sizeOf l < n →
      pratt_climb n 1 acc l =
        some (ref_expr (ref_term acc l).1 (ref_term acc l).2.1, []))
    ∧ (∀ (f : NumFactor) (t : List (BinOp × NumFactor)),
      sizeOf f + sizeOf t ≤ k → ∀ n : Nat, sizeOf f + sizeOf t < n →
      pratt_seq n f t = some (ref_seq f t)) := by
  intro k
  induction k using Nat.strong_induction_on with
  | _ k ih =>
  have IHp : ∀ p : NumPrim, sizeOf p < k → ∀ n : Nat, sizeOf p < n →
      pratt_prim n p = some (ref_prim p) :=
    fun p hp => (ih (sizeOf p) hp).1 p le_rfl
  have IHf : ∀ f : NumFactor, sizeOf f < k → ∀ n : Nat, sizeOf f < n →
      pratt_factor n f = some (ref_factor f) :=
    fun f hf => (ih (sizeOf f) hf).2.1 f le_rfl
  have IHc2 : ∀ l, sizeOf l < k → ∀ (acc : ℚ) (n : Nat), sizeOf l < n →
      pratt_climb n 2 acc l = some ((ref_term acc l).1, (ref_term acc l).2.1) :=
    fun l hl => (ih (sizeOf l) hl).2.2.1 l le_rfl
  have IHc1 : ∀ l, sizeOf l < k → ∀ (acc : ℚ) (n : Nat), sizeOf l < n →
      pratt_climb n 1 acc l =
        some (ref_expr (ref_term acc l).1 (ref_term acc l).2.1, []) :=
    fun l hl => (ih (sizeOf l) hl).2.2.2.1 l le_rfl
  have IHs : ∀ (f : NumFactor) t, sizeOf f + sizeOf t < k → ∀ n : Nat,
      sizeOf f + sizeOf t < n → pratt_seq n f t = some (ref_seq f t) :=
    fun f t hft => (ih (sizeOf f + sizeOf t) hft).2.2.2.2 f t le_rfl
  refine ⟨?_, ?_, ?_, ?_, ?_⟩
  · -- primaries
    intro p hk n hn
    cases p with
    | lit q =>
      match n, hn with
      | n' + 1, _ =>
        rw [pratt_prim, ref_prim]
    | paren f t =>
      match n, hn with
      | n' + 1, hn =>
        have hsz : sizeOf (NumPrim.paren f t) = 1 + sizeOf f + sizeOf t := by
          simp
        rw [pratt_prim, ref_prim]
        exact IHs f t (by omega) (n' + 1) (by omega)
  · -- factors
    intro f hk n hn
    obtain ⟨ops, p⟩ := f
    match n, hn with
    | n' + 1, hn =>
      have hsz : sizeOf ((ops, p) : NumFactor) = 1 + sizeOf ops + sizeOf p :=
        Prod.mk.sizeOf_spec _ _
      have hops := list_sizeOf_pos ops
      rw [pratt_factor, ref_factor, IHp p (by omega) n' (by omega)]
      rfl
  · -- climbing at the multiplicative level is the term fold
    intro l hk acc n hn
    cases l with
    | nil =>
      match n, hn with
      | n' + 1, _ =>
        rw [pratt_climb,
          show ref_term acc ([] : List (BinOp × NumFactor)) =
            (acc, ⟨[], List.suffix_refl _⟩) from by rw [ref_term]]
    | cons pr r =>
      obtain ⟨op, f⟩ := pr
      match n, hn with
      | n' + 1, hn =>
        have hsz : sizeOf (((op, f) :: r : List (BinOp × NumFactor))) =
            1 + sizeOf (op, f) + sizeOf r := List.cons.sizeOf_spec _ _
        have hsz2 : sizeOf ((op, f)) = 1 + sizeOf op + sizeOf f :=
          Prod.mk.sizeOf_spec _ _
        have hop : sizeOf op = 1 := by cases op <;> rfl
        have hrpos := list_sizeOf_pos r
        have hfpos := numFactor_sizeOf_pos f
        by_cases hpm : prec op = 2
        · have hfe := IHf f (by omega) n' (by omega)
          have htop := pratt_climb_top n' (ref_factor f) r (by omega)
          have hcont := IHc2 r (by omega) (applyBin op acc (ref_factor f)) n'
            (by omega)
          have hlhs : pratt_climb (n' + 1) 2 acc ((op, f) :: r) =
              pratt_climb n' 2 (applyBin op acc (ref_factor f)) r := by
            rw [pratt_climb, if_neg (by omega), hfe]
            show (match pratt_climb n' (prec op + 1) (ref_factor f) r with
              | none => none
              | some (rhs, r1) =>
                  pratt_climb n' 2 (applyBin op acc rhs) r1) = _
            rw [hpm, htop]
          rw [hlhs, hcont]
          have hrt1 : (ref_term acc ((op, f) :: r)).1 =
              (ref_term (applyBin op acc (ref_factor f)) r).1 := by
            rw [ref_term, if_pos hpm]
          have hrt2 : (ref_term acc ((op, f) :: r)).2.1 =
              (ref_term (applyBin op acc (ref_factor f)) r).2.1 := by
            rw [ref_term, if_pos hpm]
          rw [hrt1, hrt2]
        · have hp1 : prec op = 1 := by
            cases op <;> first | rfl | exact absurd rfl hpm
          have hlhs : pratt_climb (n' + 1) 2 acc ((op, f) :: r) =
              some (acc, (op, f) :: r) := by
            rw [pratt_climb, if_pos (by omega)]
          have hrt : ref_term acc ((op, f) :: r) =
              (acc, ⟨(op, f) :: r, List.suffix_refl _⟩) := by
            rw [ref_term, if_neg hpm]
          rw [hlhs, hrt]
  · -- climbing from the lowest level is the full layered evaluation
    intro l hk acc n hn
    cases l with
    | nil =>
      match n, hn with
      | n' + 1, _ =>
        rw [pratt_climb,
          show ref_term acc ([] : List (BinOp × NumFactor)) =
            (acc, ⟨[], List.suffix_refl _⟩) from by rw [ref_term]]
        show some (acc, []) = some (ref_expr acc [], [])
        rw [ref_expr]
    | cons pr r =>
      obtain ⟨op, f⟩ := pr
      match n, hn with
      | n' + 1, hn =>
        have hsz : sizeOf (((op, f) :: r : List (BinOp × NumFactor))) =
            1 + sizeOf (op, f) + sizeOf r := List.cons.sizeOf_spec _ _
        have hsz2 : sizeOf ((op, f)) = 1 + sizeOf op + sizeOf f :=
          Prod.mk.sizeOf_spec _ _
        have hop : sizeOf op = 1 := by cases op <;> rfl
        have hrpos := list_sizeOf_pos r
        have hfpos := numFactor_sizeOf_pos f
        have hfe := IHf f (by omega) n' (by omega)
        by_cases hpm : prec op = 2
        · have htop := pratt_climb_top n' (ref_factor f) r (by omega)
          have hcont := IHc1 r (by omega) (applyBin op acc (ref_factor f)) n'
            (by omega)
          have hlhs : pratt_climb (n' + 1) 1 acc ((op, f) :: r) =
              pratt_climb n' 1 (applyBin op acc (ref_factor f)) r := by
            rw [pratt_climb, if_neg (by omega), hfe]
            show (match pratt_climb n' (prec op + 1) (ref_factor f) r with
              | none => none
              | some (rhs, r1) =>
                  pratt_climb n' 1 (applyBin op acc rhs) r1) = _
            rw [hpm, htop]
          rw [hlhs, hcont]
          have hrt1 : (ref_term acc ((op, f) :: r)).1 =
              (ref_term (applyBin op acc (ref_factor f)) r).1 := by
            rw [ref_term, if_pos hpm]
          have hrt2 : (ref_term acc ((op, f) :: r)).2.1 =
              (ref_term (applyBin op acc (ref_factor f)) r).2.1 := by
            rw [ref_term, if_pos hpm]
          rw [hrt1, hrt2]
        · have hp1 : prec op = 1 := by
            cases op <;> first | rfl | exact absurd rfl hpm
          have hterm := IHc2 r (by omega) (ref_factor f) n' (by omega)
          have hrest : sizeOf (ref_term (ref_factor f) r).2.1 ≤ sizeOf r :=
            sizeOf_le_of_suffix (ref_term (ref_factor f) r).2.2
          have hcont := IHc1 ((ref_term (ref_factor f) r).2.1) (by omega)
            (applyBin op acc (ref_term (ref_factor f) r).1) n' (by omega)
          have hlhs : pratt_climb (n' + 1) 1 acc ((op, f) :: r) =
              pratt_climb n' 1
                (applyBin op acc (ref_term (ref_factor f) r).1)
                ((ref_term (ref_factor f) r).2.1) := by
            rw [pratt_climb, if_neg (by omega), hfe]
            show (match pratt_climb n' (prec op + 1) (ref_factor f) r with
              | none => none
              | some (rhs, r1) =>
                  pratt_climb n' 1 (applyBin op acc rhs) r1) = _
            rw [hp1, hterm]
          rw [hlhs, hcont]
          have hstable := ref_term_rest_stable r (ref_factor f)
            (applyBin op acc (ref_term (ref_factor f) r).1)
          rw [hstable.1, hstable.2]
          have hrt : ref_term acc ((op, f) :: r) =
              (acc, ⟨(op, f) :: r, List.suffix_refl _⟩) := by
            rw [ref_term, if_neg hpm]
          rw [hrt]
          have hexp : ref_expr acc ((op, f) :: r) =
              ref_expr (applyBin op acc (ref_term (ref_factor f) r).1)
                ((ref_term (ref_factor f) r).2.1) := by
            rw [ref_expr]
          rw [hexp]
  · -- whole nodes
    intro f t hk n hn
    match n, hn with
    | n' + 1, hn =>
      have hfpos := numFactor_sizeOf_pos f
      have htpos := list_sizeOf_pos t
      have hfe := IHf f (by omega) n' (by omega)
      have hclimb := IHc1 t (by omega) (ref_factor f) n' (by omega)
      rw [pratt_seq, hfe]
      show (match pratt_climb n' 1 (ref_factor f) t with
        | none => none
        | some (v, _) => some v) = some (ref_seq f t)
      rw [hclimb]
      have hseq : ref_seq f t =
          ref_expr (ref_term (ref_factor f) t).1 ((ref_term (ref_factor f) t).2.1) := by
        rw [ref_seq]
      rw [hseq]

/-- C8: numeric evaluation. For every numeric expression accepted by the
grammar — modelled as a parse tree of a leading factor and a list of
(infix operator, factor) pairs, where a factor is a list of unary prefix
operators applied to a primary (literal or parenthesized subexpression) —
the precedence-climbing evaluator `pratt_seq` built from the PRATT table
(add/sub at precedence 1, mul/div at precedence 2, both left-associative,
prefix operators binding tightest, parentheses recursing into a fresh
expression), run with any fuel exceeding the size of the tree, returns
exactly the standard layered mathematical interpretation `ref_seq`, in
which `+ -` associate left at lower precedence than the left-associative
`* /`, unary minus negates, unary plus is the identity, and arithmetic is
exact over the rationals. -/
theorem C8_numeric_evaluation (f : NumFactor) (t : List (BinOp × NumFactor))
    (n : Nat) (h : sizeOf f + sizeOf t < n) :
    pratt_seq n f t = some (ref_seq f t) :=
  (pratt_ref_agree (sizeOf f + sizeOf t)).2.2.2.2 f t le_rfl n h

def c8f : NumFactor := ([], NumPrim.lit 2)

def c8t : List (BinOp × NumFactor) :=
  [(BinOp.add, ([], NumPrim.lit 3)), (BinOp.mul, ([], NumPrim.lit 4))]

/-- Witness for C8 at the expression 2 + 3 * 4 with fuel 1000. -/
theorem C8_numeric_evaluation_witness :
    sizeOf c8f + sizeOf c8t < 1000 ∧
      pratt_seq 1000 c8f c8t = some (ref_seq c8f c8t) :=
  ⟨by decide, C8_numeric_evaluation c8f c8t 1000 (by decide)⟩

end Beancount
